import Mathlib

/-!
Verification of the MazeSolver pathfinding engine.

The definitions below are a shallow embedding of the Python sources
`maze.py` (grid model: `is_valid_position`, `is_free_space`, `get_neighbors`),
`config.py` (the `DIRECTIONS` constant and the cell symbols) and
`algorithms.py` (`reconstruct_path`, `manhattan_distance`, `bfs`, `dfs`,
`astar`, `run_algorithm`).  Python `while` loops become fuel-indexed
recursions; a `none` result means the fuel ran out (which the termination
lemmas below rule out for the fuel used by the top level functions).
Python dictionaries become association lists where assignment prepends an
entry and lookup takes the newest entry, and the `heapq` binary heap becomes
a list kept sorted by the Python tuple order, so that each pop returns the
minimum entry exactly as `heapq.heappop` does.  Wall-clock times are not
modelled; every other statistics field is.
-/

namespace MazeSolver

/-- Coordinates are `(row, col)` pairs of Python integers. -/
abbrev Coord := Int × Int

/-- Cell values from `config.py`: `WALL = 1`, `FREE = 0`, `START = 'S'`,
`GOAL = 'G'`. -/
inductive MazeCell where
  | wall
  | free
  | startCell
  | goalCell
deriving DecidableEq, Repr

/-- Movement directions from `config.py` (right, down, left, up). -/
def DIRECTIONS : List (Int × Int) := [(0, 1), (1, 0), (0, -1), (-1, 0)]

/-- The maze data owned by the `Maze` class in `maze.py`. -/
structure Maze where
  rows : Nat
  cols : Nat
  grid : List (List MazeCell)
  start : Coord
  goal : Coord
deriving Repr

/-- Reading `self.grid[row][col]`; only ever used behind the bounds check of
`is_valid_position`, so the defaults are never consulted by the algorithms. -/
def Maze.cellValue (m : Maze) (row col : Int) : MazeCell :=
  (m.grid.getD row.toNat []).getD col.toNat .free

/-- Method `is_valid_position` of `maze.py`. -/
def Maze.is_valid_position (m : Maze) (row col : Int) : Bool :=
  decide (0 ≤ row) && decide (row < (m.rows : Int)) &&
    decide (0 ≤ col) && decide (col < (m.cols : Int))

/-- Method `is_free_space` of `maze.py`. -/
def Maze.is_free_space (m : Maze) (row col : Int) : Bool :=
  m.is_valid_position row col && decide (m.cellValue row col ≠ .wall)

/-- Method `get_neighbors` of `maze.py`: the loop over `DIRECTIONS`
appending each passable neighbor. -/
def Maze.get_neighbors (m : Maze) (row col : Int) : List Coord :=
  DIRECTIONS.foldl
    (fun neighbors d =>
      let new_row := row + d.1
      let new_col := col + d.2
      if m.is_free_space new_row new_col then neighbors ++ [(new_row, new_col)]
      else neighbors)
    []

/-- Well-formedness facts guaranteed by the `Maze` class for every maze it
hands to the search engine: the start and goal cells carry the `START` and
`GOAL` symbols, hence are in bounds and passable (spec section 3). -/
def Maze.WF (m : Maze) : Prop :=
  m.is_free_space m.start.1 m.start.2 = true ∧
    m.is_free_space m.goal.1 m.goal.2 = true

instance (m : Maze) : Decidable m.WF := by unfold Maze.WF; infer_instance

/-- Function `manhattan_distance` of `algorithms.py`.  The Python result is a
non-negative `int`, modelled as a natural number. -/
def manhattan_distance (pos1 pos2 : Coord) : Nat :=
  (pos1.1 - pos2.1).natAbs + (pos1.2 - pos2.2).natAbs

/-- Parent dictionaries map a coordinate to an optional predecessor; `bfs`
and `dfs` store `None` for the start, `astar` simply has no entry for it. -/
abbrev ParentMap := List (Coord × Option Coord)

/-- Python `parent.get(current)`: the newest entry wins (assignments
prepend), and a missing key yields `none` exactly like `dict.get`. -/
def parentGet (parent : ParentMap) (c : Coord) : Option Coord :=
  match parent.find? (fun e => decide (e.1 = c)) with
  | some e => e.2
  | none => none

/-- Body of the `while current is not None` loop of `reconstruct_path`,
with explicit fuel.  Each iteration appends `current` and follows the
parent pointer. -/
def reconstructLoop (parent : ParentMap) : Nat → Option Coord → List Coord → List Coord
  | _, none, path => path
  | 0, some _, path => path
  | fuel + 1, some current, path =>
      reconstructLoop parent fuel (parentGet parent current) (path ++ [current])

/-- Method `reconstruct_path` of `algorithms.py`; the `start` parameter is
unused exactly as in the source.  The fuel `parent.length + 1` is enough for
every parent map the three algorithms build, because parent chains visit
distinct keys. -/
def reconstruct_path (parent : ParentMap) (start goal : Coord) : List Coord :=
  (reconstructLoop parent (parent.length + 1) (some goal) []).reverse

/-- Statistics dictionary built by each search; the wall-clock `time` entry
is not modelled. -/
structure Stats where
  algorithm : String
  nodes_visited : Nat
  path_length : Nat
  path_found : Bool
deriving DecidableEq, Repr

/-- One `graphics.draw_visited_cell(row, col, tag)` call. -/
abbrev VisEvent := Int × Int × String

/-- What one search run produces: the returned path (or `none` when the
search reports no path), the statistics, and the visualization calls made. -/
abbrev SearchReturn := Option (List Coord) × Stats × List VisEvent

/-- Body of the neighbor loop of `bfs`: for a neighbor not yet visited, mark
it visited, record its parent and append it to the queue. -/
def bfsStep (current : Coord) (acc : List Coord × List Coord × ParentMap)
    (neighbor : Coord) : List Coord × List Coord × ParentMap :=
  if neighbor ∈ acc.2.1 then acc
  else (acc.1 ++ [neighbor], neighbor :: acc.2.1, (neighbor, some current) :: acc.2.2)

/-- Neighbor expansion of `bfs`: the loop over the neighbors of the popped
node. -/
def bfsExpand (m : Maze) (current : Coord)
    (acc0 : List Coord × List Coord × ParentMap) :
    List Coord × List Coord × ParentMap :=
  (m.get_neighbors current.1 current.2).foldl (bfsStep current) acc0

/-- Main loop of `bfs`: pop the queue front, count the node, emit the
visualization event unless suppressed, stop at the goal, else expand. -/
def bfsLoop (m : Maze) (visualize : Bool) :
    Nat → List Coord → List Coord → ParentMap → Nat → List VisEvent → Option SearchReturn
  | 0, _, _, _, _, _ => none
  | _ + 1, [], _, _, nodes_visited, events =>
      some (none, ⟨"BFS", nodes_visited, 0, false⟩, events)
  | fuel + 1, current :: queue, visited, parent, nodes_visited, events =>
      let nodes_visited := nodes_visited + 1
      let events :=
        if visualize ∧ current ≠ m.start then events ++ [(current.1, current.2, "BFS")]
        else events
      if current = m.goal then
        let path := reconstruct_path parent m.start m.goal
        some (some path, ⟨"BFS", nodes_visited, path.length, true⟩, events)
      else
        let step := bfsExpand m current (queue, visited, parent)
        bfsLoop m visualize fuel step.1 step.2.1 step.2.2 nodes_visited events

/-- Fuel sufficient for the BFS and DFS loops: at most `rows * cols` pops can
happen, plus one final empty-queue check. -/
def bfsFuel (m : Maze) : Nat := m.rows * m.cols + 1

/-- Method `bfs` of `algorithms.py`: queue, visited set and parent map all
seeded with the start. -/
def bfs (m : Maze) (visualize : Bool) : Option SearchReturn :=
  bfsLoop m visualize (bfsFuel m) [m.start] [m.start] [(m.start, none)] 0 []

/-- Body of the neighbor loop of `dfs`: for a neighbor not yet visited, mark
it visited, record its parent and push it onto the stack. -/
def dfsStep (current : Coord) (acc : List Coord × List Coord × ParentMap)
    (neighbor : Coord) : List Coord × List Coord × ParentMap :=
  if neighbor ∈ acc.2.1 then acc
  else (neighbor :: acc.1, neighbor :: acc.2.1, (neighbor, some current) :: acc.2.2)

/-- Neighbor expansion of `dfs`: iterate the neighbors in reverse order and
push each unvisited one onto the stack. -/
def dfsExpand (m : Maze) (current : Coord)
    (acc0 : List Coord × List Coord × ParentMap) :
    List Coord × List Coord × ParentMap :=
  (m.get_neighbors current.1 current.2).reverse.foldl (dfsStep current) acc0

/-- Main loop of `dfs`: identical to the BFS loop except that the frontier
is a stack and neighbors are pushed in reverse order. -/
def dfsLoop (m : Maze) (visualize : Bool) :
    Nat → List Coord → List Coord → ParentMap → Nat → List VisEvent → Option SearchReturn
  | 0, _, _, _, _, _ => none
  | _ + 1, [], _, _, nodes_visited, events =>
      some (none, ⟨"DFS", nodes_visited, 0, false⟩, events)
  | fuel + 1, current :: stack, visited, parent, nodes_visited, events =>
      let nodes_visited := nodes_visited + 1
      let events :=
        if visualize ∧ current ≠ m.start then events ++ [(current.1, current.2, "DFS")]
        else events
      if current = m.goal then
        let path := reconstruct_path parent m.start m.goal
        some (some path, ⟨"DFS", nodes_visited, path.length, true⟩, events)
      else
        let step := dfsExpand m current (stack, visited, parent)
        dfsLoop m visualize fuel step.1 step.2.1 step.2.2 nodes_visited events

/-- Method `dfs` of `algorithms.py`. -/
def dfs (m : Maze) (visualize : Bool) : Option SearchReturn :=
  dfsLoop m visualize (bfsFuel m) [m.start] [m.start] [(m.start, none)] 0 []

/-- Heap entries are `(f_score, node)` pairs, compared as Python compares
tuples: by `f_score` first, then by row, then by column. -/
abbrev HeapEntry := Nat × Coord

/-- Python tuple comparison on `(f_score, (row, col))` entries. -/
def entryLe (a b : HeapEntry) : Bool :=
  decide (a.1 < b.1) ||
    (decide (a.1 = b.1) &&
      (decide (a.2.1 < b.2.1) ||
        (decide (a.2.1 = b.2.1) && decide (a.2.2 ≤ b.2.2))))

/-- Model of `heapq.heappush`: keep the list sorted by the tuple order, so
that the head is always the minimum entry, which is exactly the element
`heapq.heappop` returns. -/
def heappush (x : HeapEntry) : List HeapEntry → List HeapEntry
  | [] => [x]
  | y :: ys => if entryLe x y then x :: y :: ys else y :: heappush x ys

/-- Sortedness by the Python tuple order; the heap model keeps the open set
in this form, so its head is the minimum entry. -/
def HeapSorted (l : List HeapEntry) : Prop :=
  l.Pairwise (fun a b => entryLe a b = true)

/-- The `g_score` and `f_score` dictionaries of `astar`. -/
abbrev ScoreMap := List (Coord × Nat)

/-- Python dictionary lookup on a score map, newest entry first. -/
def scoreGet? (g : ScoreMap) (c : Coord) : Option Nat :=
  (g.find? (fun e => decide (e.1 = c))).map (·.2)

/-- Body of the neighbor loop of `astar`: skip closed neighbors, compute the
tentative g-score with unit edge cost, and on improvement record the
predecessor, update both score maps and push the new heap entry. -/
def astarStep (m : Maze) (current : Coord) (g_current : Nat) (visited : List Coord)
    (acc : List HeapEntry × ParentMap × ScoreMap × ScoreMap) (neighbor : Coord) :
    List HeapEntry × ParentMap × ScoreMap × ScoreMap :=
  if neighbor ∈ visited then acc
  else
    let tentative_g := g_current + 1
    let better :=
      match scoreGet? acc.2.2.1 neighbor with
      | none => true
      | some gv => decide (tentative_g < gv)
    if better then
      let f := tentative_g + manhattan_distance neighbor m.goal
      (heappush (f, neighbor) acc.1, (neighbor, some current) :: acc.2.1,
        (neighbor, tentative_g) :: acc.2.2.1, (neighbor, f) :: acc.2.2.2)
    else acc

/-- Neighbor expansion of `astar`: the loop over the neighbors of the popped
node. -/
def astarExpand (m : Maze) (current : Coord) (g_current : Nat) (visited : List Coord)
    (acc0 : List HeapEntry × ParentMap × ScoreMap × ScoreMap) :
    List HeapEntry × ParentMap × ScoreMap × ScoreMap :=
  (m.get_neighbors current.1 current.2).foldl (astarStep m current g_current visited) acc0

/-- Main loop of `astar`: pop the minimum heap entry, discard it when the
node is already closed (lazy deletion), otherwise close it, count it, emit
the visualization event unless suppressed, stop at the goal, else expand.
Every node popped and not discarded has a `g_score` entry (an invariant
proved below), so the `getD` default is never consulted. -/
def astarLoop (m : Maze) (visualize : Bool) :
    Nat → List HeapEntry → ParentMap → ScoreMap → ScoreMap → List Coord → Nat →
      List VisEvent → Option SearchReturn
  | 0, _, _, _, _, _, _, _ => none
  | _ + 1, [], _, _, _, _, nodes_visited, events =>
      some (none, ⟨"A*", nodes_visited, 0, false⟩, events)
  | fuel + 1, entry :: open_rest, came_from, g_score, f_score, visited, nodes_visited,
      events =>
      let current := entry.2
      if current ∈ visited then
        astarLoop m visualize fuel open_rest came_from g_score f_score visited
          nodes_visited events
      else
        let visited := current :: visited
        let nodes_visited := nodes_visited + 1
        let events :=
          if visualize ∧ current ≠ m.start then events ++ [(current.1, current.2, "ASTAR")]
          else events
        if current = m.goal then
          let path := reconstruct_path came_from m.start m.goal
          some (some path, ⟨"A*", nodes_visited, path.length, true⟩, events)
        else
          let step := astarExpand m current ((scoreGet? g_score current).getD 0) visited
            (open_rest, came_from, g_score, f_score)
          astarLoop m visualize fuel step.1 step.2.1 step.2.2.1 step.2.2.2 visited
            nodes_visited events

/-- Fuel sufficient for the A* loop: at most `1 + 4 * rows * cols` heap
entries are ever pushed, each loop iteration pops one, plus one final
empty-heap check. -/
def astarFuel (m : Maze) : Nat := 5 * (m.rows * m.cols) + 2

/-- Initial frontier of `astar`, line 147 of `algorithms.py`: the single
entry `(0, start)`. -/
def astarInitOpen (m : Maze) : List HeapEntry := [(0, m.start)]

/-- Initial `g_score` dictionary of `astar`: the start maps to `0`. -/
def astarInitG (m : Maze) : ScoreMap := [(m.start, 0)]

/-- Initial `f_score` dictionary of `astar`: the start maps to its Manhattan
distance to the goal. -/
def astarInitF (m : Maze) : ScoreMap := [(m.start, manhattan_distance m.start m.goal)]

/-- Method `astar` of `algorithms.py`: empty predecessor map and closed set,
seeded frontier and score maps as above. -/
def astar (m : Maze) (visualize : Bool) : Option SearchReturn :=
  astarLoop m visualize (astarFuel m) (astarInitOpen m) [] (astarInitG m) (astarInitF m)
    [] 0 []

/-- Model of the Python `str.upper` method: character-wise uppercase. -/
def strUpper (s : String) : String := ⟨s.data.map Char.toUpper⟩

/-- Method `run_algorithm` of `algorithms.py`: upper-case the name, dispatch
on it, and raise `ValueError` for unknown names. -/
def run_algorithm (m : Maze) (algorithm_name : String) (visualize : Bool) :
    Except String (Option SearchReturn) :=
  let algorithm_name := strUpper algorithm_name
  if algorithm_name = "BFS" then .ok (bfs m visualize)
  else if algorithm_name = "DFS" then .ok (dfs m visualize)
  else if algorithm_name = "ASTAR" ∨ algorithm_name = "A*" then .ok (astar m visualize)
  else .error ("Unknown algorithm: " ++ algorithm_name)

/-- Walks in the adjacency graph the engine explores: one step goes from a
cell to one of its `get_neighbors`. -/
inductive PathTo (m : Maze) : Coord → Coord → Nat → Prop where
  | refl (c : Coord) : PathTo m c c 0
  | step {a b c : Coord} {n : Nat} (hab : b ∈ m.get_neighbors a.1 a.2)
      (h : PathTo m b c n) : PathTo m a c (n + 1)

/-- Reachability in the adjacency graph. -/
def Reachable (m : Maze) (a b : Coord) : Prop := ∃ n, PathTo m a b n

/-- The number `n` is the length in edges of a shortest walk from `a` to
`b`. -/
def shortestDist (m : Maze) (a b : Coord) (n : Nat) : Prop :=
  PathTo m a b n ∧ ∀ k, PathTo m a b k → n ≤ k

/-- Position of the newest entry for key `c` in a parent map; equals the
length of the map when the key is absent. -/
def keyIdx (l : ParentMap) (c : Coord) : Nat := l.findIdx (fun e => decide (e.1 = c))

/-- Parent maps built by the three searches always point from newer keys to
strictly older positions, which makes every parent chain finite and free of
duplicates. -/
def ParentOrdered (l : ParentMap) : Prop :=
  ∀ k p, parentGet l k = some p → keyIdx l k < keyIdx l p

/-- The path validity properties claimed of every returned path: it runs
from start to goal, repeats no coordinate, and each consecutive pair is a
grid-neighbor pair, one Manhattan step apart, with every cell passable. -/
def ValidPath (m : Maze) (p : List Coord) : Prop :=
  p.head? = some m.start ∧ p.getLast? = some m.goal ∧ p.Nodup ∧
    List.Chain'
      (fun a b => b ∈ m.get_neighbors a.1 a.2 ∧ manhattan_distance a b = 1) p ∧
    ∀ c ∈ p, m.is_free_space c.1 c.2 = true

/-- Loop invariant of the BFS search, relating the queue, the visited set
and the parent map to the maze.  The layering component is the classic BFS
frontier property: the queue splits into a block at some distance `d`
followed by a block at distance `d + 1`, every visited coordinate lies
within distance `d + 1`, and every coordinate within distance `d` is
already visited. -/
structure BfsInv (m : Maze) (q v : List Coord) (l : ParentMap) : Prop where
  start_mem : m.start ∈ v
  nodup_v : v.Nodup
  nodup_q : q.Nodup
  valid_v : ∀ c ∈ v, m.is_valid_position c.1 c.2 = true
  q_sub_v : ∀ c ∈ q, c ∈ v
  reach_v : ∀ c ∈ v, Reachable m m.start c
  ordered : ParentOrdered l
  start_none : parentGet l m.start = none
  vals_v : ∀ k p, parentGet l k = some p → p ∈ v
  adj : ∀ k p, parentGet l k = some p → k ∈ m.get_neighbors p.1 p.2
  v_parent : ∀ c ∈ v, c = m.start ∨ ∃ p, parentGet l c = some p
  dist_exact : ∀ k p, parentGet l k = some p →
    ∃ d, shortestDist m m.start p d ∧ shortestDist m m.start k (d + 1)
  expanded : ∀ u ∈ v, u ∉ q → ∀ nb ∈ m.get_neighbors u.1 u.2, nb ∈ v
  goal_in_q : m.goal ∈ v → m.goal ∈ q
  layer : ∃ (d : Nat) (q₁ q₂ : List Coord), q = q₁ ++ q₂ ∧
    (∀ c ∈ q₁, shortestDist m m.start c d) ∧
    (∀ c ∈ q₂, shortestDist m m.start c (d + 1)) ∧
    (∀ c ∈ v, ∀ dc, shortestDist m m.start c dc → dc ≤ d + 1) ∧
    (∀ x dx, shortestDist m m.start x dx → dx ≤ d → x ∈ v)

/-- Loop invariant of the DFS search: like the BFS invariant but without
the frontier layering, since DFS promises no shortest path. -/
structure DfsInv (m : Maze) (q v : List Coord) (l : ParentMap) : Prop where
  start_mem : m.start ∈ v
  nodup_v : v.Nodup
  valid_v : ∀ c ∈ v, m.is_valid_position c.1 c.2 = true
  q_sub_v : ∀ c ∈ q, c ∈ v
  reach_v : ∀ c ∈ v, Reachable m m.start c
  ordered : ParentOrdered l
  start_none : parentGet l m.start = none
  vals_v : ∀ k p, parentGet l k = some p → p ∈ v
  adj : ∀ k p, parentGet l k = some p → k ∈ m.get_neighbors p.1 p.2
  v_parent : ∀ c ∈ v, c = m.start ∨ ∃ p, parentGet l c = some p

/-- Loop invariant of the A* search.  Closed (visited) nodes carry exact
shortest distances in `g_score`; every unvisited scored node keeps a frontier
entry bounded by its f-value; closed nodes have offered each neighbor a
g-score at most one above their own distance; the predecessor map increases
g-scores by exactly one along parent pointers.  The frontier seed `(0, start)`
is the one entry whose priority key is below its f-value, which is harmless
because it is popped first. -/
structure AstarInv (m : Maze) (o : List HeapEntry) (cf : ParentMap) (g : ScoreMap)
    (v : List Coord) : Prop where
  sorted : HeapSorted o
  nodup_v : v.Nodup
  valid_v : ∀ c ∈ v, m.is_valid_position c.1 c.2 = true
  goal_notin : m.goal ∉ v
  init_or_start : (v = [] ∧ o = [(0, m.start)] ∧ g = [(m.start, 0)] ∧ cf = []) ∨
    m.start ∈ v
  g_start : scoreGet? g m.start = some 0
  g_path : ∀ c gc, scoreGet? g c = some gc → PathTo m m.start c gc
  g_valid : ∀ c gc, scoreGet? g c = some gc → m.is_valid_position c.1 c.2 = true
  v_exact : ∀ c ∈ v, ∀ gc, scoreGet? g c = some gc → shortestDist m m.start c gc
  v_has_g : ∀ c ∈ v, ∃ gc, scoreGet? g c = some gc
  open_g : ∀ e ∈ o, ∃ ge, scoreGet? g e.2 = some ge ∧
    (ge + manhattan_distance e.2 m.goal ≤ e.1 ∨ (e.2 = m.start ∧ e.1 = 0))
  unvisited_open : ∀ c gc, scoreGet? g c = some gc → c ∉ v →
    ∃ fc, (fc, c) ∈ o ∧ fc ≤ gc + manhattan_distance c m.goal
  expanded : ∀ u ∈ v, ∀ nb ∈ m.get_neighbors u.1 u.2, nb ∈ v ∨
    ∃ gnb, scoreGet? g nb = some gnb ∧
      ∀ du, shortestDist m m.start u du → gnb ≤ du + 1
  cf_ordered : ParentOrdered cf
  cf_start : parentGet cf m.start = none
  cf_vals : ∀ k p, parentGet cf k = some p → p ∈ v
  cf_adj : ∀ k p, parentGet cf k = some p → k ∈ m.get_neighbors p.1 p.2
  cf_g : ∀ k p, parentGet cf k = some p → ∃ gk gp, scoreGet? g k = some gk ∧
    scoreGet? g p = some gp ∧ gk = gp + 1
  keyed_parent : ∀ c gc, scoreGet? g c = some gc →
    c = m.start ∨ ∃ p, parentGet cf c = some p

/-- Invariant carried through the A* neighbor loop.  The list `vnew` is the
closed set with the current node already added; `gcur` is the exact distance
of the current node. -/
structure AstarExpandInv (m : Maze) (vnew : List Coord) (current : Coord) (gcur : Nat)
    (acc : List HeapEntry × ParentMap × ScoreMap × ScoreMap) : Prop where
  sorted : HeapSorted acc.1
  g_start : scoreGet? acc.2.2.1 m.start = some 0
  g_cur : scoreGet? acc.2.2.1 current = some gcur
  g_path : ∀ c gc, scoreGet? acc.2.2.1 c = some gc → PathTo m m.start c gc
  g_valid : ∀ c gc, scoreGet? acc.2.2.1 c = some gc →
    m.is_valid_position c.1 c.2 = true
  frozen : ∀ c ∈ vnew, ∀ gc, scoreGet? acc.2.2.1 c = some gc →
    shortestDist m m.start c gc
  has_g : ∀ c ∈ vnew, ∃ gc, scoreGet? acc.2.2.1 c = some gc
  open_g : ∀ e ∈ acc.1, ∃ ge, scoreGet? acc.2.2.1 e.2 = some ge ∧
    (ge + manhattan_distance e.2 m.goal ≤ e.1 ∨ (e.2 = m.start ∧ e.1 = 0))
  unv_open : ∀ c gc, scoreGet? acc.2.2.1 c = some gc → c ∉ vnew →
    ∃ fc, (fc, c) ∈ acc.1 ∧ fc ≤ gc + manhattan_distance c m.goal
  cf_ordered : ParentOrdered acc.2.1
  cf_start : parentGet acc.2.1 m.start = none
  cf_vals : ∀ k p, parentGet acc.2.1 k = some p → p ∈ vnew
  cf_adj : ∀ k p, parentGet acc.2.1 k = some p → k ∈ m.get_neighbors p.1 p.2
  cf_g : ∀ k p, parentGet acc.2.1 k = some p → ∃ gk gp,
    scoreGet? acc.2.2.1 k = some gk ∧ scoreGet? acc.2.2.1 p = some gp ∧ gk = gp + 1
  keyed_parent : ∀ c gc, scoreGet? acc.2.2.1 c = some gc →
    c = m.start ∨ ∃ p, parentGet acc.2.1 c = some p

/-- Concrete example maze: border walls around a free 2 by 2 interior, the
standard corner start and goal; the goal is reachable in 2 steps. -/
def exMaze : Maze where
  rows := 4
  cols := 4
  grid :=
    [[.wall, .wall, .wall, .wall],
     [.wall, .startCell, .free, .wall],
     [.wall, .free, .goalCell, .wall],
     [.wall, .wall, .wall, .wall]]
  start := (1, 1)
  goal := (2, 2)

/-- Concrete example maze whose goal is walled off from the start. -/
def exMazeU : Maze where
  rows := 3
  cols := 1
  grid := [[.startCell], [.wall], [.goalCell]]
  start := (0, 0)
  goal := (2, 0)

end MazeSolver

namespace MazeSolver

/-! Theorems. -/

/-- Helper: the BFS loop result, forgetting the visualization events. -/
theorem bfsLoop_result_eq (m : Maze) (vis1 vis2 : Bool) :
    ∀ (fuel : Nat) (q v : List Coord) (p : ParentMap) (nv : Nat) (ev1 ev2 : List VisEvent),
      (bfsLoop m vis1 fuel q v p nv ev1).map (fun r => (r.1, r.2.1)) =
        (bfsLoop m vis2 fuel q v p nv ev2).map (fun r => (r.1, r.2.1))
  | 0, _, _, _, _, _, _ => rfl
  | _ + 1, [], _, _, _, _, _ => rfl
  | fuel + 1, current :: queue, v, p, nv, ev1, ev2 => by
      simp only [bfsLoop]
      by_cases h : current = m.goal
      · simp [h]
      · simp only [if_neg h]
        exact bfsLoop_result_eq m vis1 vis2 fuel _ _ _ _ _ _

/-- Helper: with visualization off, the BFS loop appends no events. -/
theorem bfsLoop_false_events (m : Maze) :
    ∀ (fuel : Nat) (q v : List Coord) (p : ParentMap) (nv : Nat) (ev : List VisEvent)
      (r : Option (List Coord)) (s : Stats) (e : List VisEvent),
      bfsLoop m false fuel q v p nv ev = some (r, s, e) → e = ev
  | 0, _, _, _, _, _, _, _, _ => by intro h; exact absurd h (by simp [bfsLoop])
  | _ + 1, [], _, _, _, _, _, _, _ => by
      intro h
      simp only [bfsLoop, Option.some.injEq, Prod.mk.injEq] at h
      exact h.2.2.symm
  | fuel + 1, current :: queue, v, p, nv, ev, r, s, e => by
      intro h
      simp only [bfsLoop, Bool.false_eq_true, false_and, if_false] at h
      by_cases hg : current = m.goal
      · simp only [if_pos hg, Option.some.injEq, Prod.mk.injEq] at h
        exact h.2.2.symm
      · simp only [if_neg hg] at h
        exact bfsLoop_false_events m fuel _ _ _ _ _ _ _ _ h

/-- Helper: found-path statistics of the BFS loop. -/
theorem bfsLoop_found_stats (m : Maze) (vis : Bool) :
    ∀ (fuel : Nat) (q v : List Coord) (p : ParentMap) (nv : Nat) (ev : List VisEvent)
      (r : Option (List Coord)) (s : Stats) (e : List VisEvent),
      bfsLoop m vis fuel q v p nv ev = some (r, s, e) →
        (s.path_found = true ↔ ∃ path, r = some path) ∧
          ∀ path, r = some path → s.path_length = path.length
  | 0, _, _, _, _, _, _, _, _ => by intro h; exact absurd h (by simp [bfsLoop])
  | _ + 1, [], _, _, _, _, _, _, _ => by
      intro h
      simp only [bfsLoop, Option.some.injEq, Prod.mk.injEq] at h
      obtain ⟨hr, hs, -⟩ := h
      subst hr hs
      simp
  | fuel + 1, current :: queue, v, p, nv, ev, r, s, e => by
      intro h
      simp only [bfsLoop] at h
      by_cases hg : current = m.goal
      · simp only [if_pos hg, Option.some.injEq, Prod.mk.injEq] at h
        obtain ⟨hr, hs, -⟩ := h
        subst hr hs
        refine ⟨by simp, ?_⟩
        rintro path hpath
        cases hpath
        rfl
      · simp only [if_neg hg] at h
        exact bfsLoop_found_stats m vis fuel _ _ _ _ _ _ _ _ h

/-- Helper: the DFS loop result, forgetting the visualization events. -/
theorem dfsLoop_result_eq (m : Maze) (vis1 vis2 : Bool) :
    ∀ (fuel : Nat) (q v : List Coord) (p : ParentMap) (nv : Nat) (ev1 ev2 : List VisEvent),
      (dfsLoop m vis1 fuel q v p nv ev1).map (fun r => (r.1, r.2.1)) =
        (dfsLoop m vis2 fuel q v p nv ev2).map (fun r => (r.1, r.2.1))
  | 0, _, _, _, _, _, _ => rfl
  | _ + 1, [], _, _, _, _, _ => rfl
  | fuel + 1, current :: queue, v, p, nv, ev1, ev2 => by
      simp only [dfsLoop]
      by_cases h : current = m.goal
      · simp [h]
      · simp only [if_neg h]
        exact dfsLoop_result_eq m vis1 vis2 fuel _ _ _ _ _ _

/-- Helper: with visualization off, the DFS loop appends no events. -/
theorem dfsLoop_false_events (m : Maze) :
    ∀ (fuel : Nat) (q v : List Coord) (p : ParentMap) (nv : Nat) (ev : List VisEvent)
      (r : Option (List Coord)) (s : Stats) (e : List VisEvent),
      dfsLoop m false fuel q v p nv ev = some (r, s, e) → e = ev
  | 0, _, _, _, _, _, _, _, _ => by intro h; exact absurd h (by simp [dfsLoop])
  | _ + 1, [], _, _, _, _, _, _, _ => by
      intro h
      simp only [dfsLoop, Option.some.injEq, Prod.mk.injEq] at h
      exact h.2.2.symm
  | fuel + 1, current :: queue, v, p, nv, ev, r, s, e => by
      intro h
      simp only [dfsLoop, Bool.false_eq_true, false_and, if_false] at h
      by_cases hg : current = m.goal
      · simp only [if_pos hg, Option.some.injEq, Prod.mk.injEq] at h
        exact h.2.2.symm
      · simp only [if_neg hg] at h
        exact dfsLoop_false_events m fuel _ _ _ _ _ _ _ _ h

/-- Helper: found-path statistics of the DFS loop. -/
theorem dfsLoop_found_stats (m : Maze) (vis : Bool) :
    ∀ (fuel : Nat) (q v : List Coord) (p : ParentMap) (nv : Nat) (ev : List VisEvent)
      (r : Option (List Coord)) (s : Stats) (e : List VisEvent),
      dfsLoop m vis fuel q v p nv ev = some (r, s, e) →
        (s.path_found = true ↔ ∃ path, r = some path) ∧
          ∀ path, r = some path → s.path_length = path.length
  | 0, _, _, _, _, _, _, _, _ => by intro h; exact absurd h (by simp [dfsLoop])
  | _ + 1, [], _, _, _, _, _, _, _ => by
      intro h
      simp only [dfsLoop, Option.some.injEq, Prod.mk.injEq] at h
      obtain ⟨hr, hs, -⟩ := h
      subst hr hs
      simp
  | fuel + 1, current :: queue, v, p, nv, ev, r, s, e => by
      intro h
      simp only [dfsLoop] at h
      by_cases hg : current = m.goal
      · simp only [if_pos hg, Option.some.injEq, Prod.mk.injEq] at h
        obtain ⟨hr, hs, -⟩ := h
        subst hr hs
        refine ⟨by simp, ?_⟩
        rintro path hpath
        cases hpath
        rfl
      · simp only [if_neg hg] at h
        exact dfsLoop_found_stats m vis fuel _ _ _ _ _ _ _ _ h

/-- Helper: the A* loop result, forgetting the visualization events. -/
theorem astarLoop_result_eq (m : Maze) (vis1 vis2 : Bool) :
    ∀ (fuel : Nat) (o : List HeapEntry) (cf : ParentMap) (g f : ScoreMap)
      (v : List Coord) (nv : Nat) (ev1 ev2 : List VisEvent),
      (astarLoop m vis1 fuel o cf g f v nv ev1).map (fun r => (r.1, r.2.1)) =
        (astarLoop m vis2 fuel o cf g f v nv ev2).map (fun r => (r.1, r.2.1))
  | 0, _, _, _, _, _, _, _, _ => rfl
  | _ + 1, [], _, _, _, _, _, _, _ => rfl
  | fuel + 1, entry :: open_rest, cf, g, f, v, nv, ev1, ev2 => by
      simp only [astarLoop]
      by_cases hv : entry.2 ∈ v
      · simp only [if_pos hv]
        exact astarLoop_result_eq m vis1 vis2 fuel _ _ _ _ _ _ _ _
      · simp only [if_neg hv]
        by_cases hg : entry.2 = m.goal
        · simp [hg]
        · simp only [if_neg hg]
          exact astarLoop_result_eq m vis1 vis2 fuel _ _ _ _ _ _ _ _

/-- Helper: with visualization off, the A* loop appends no events. -/
theorem astarLoop_false_events (m : Maze) :
    ∀ (fuel : Nat) (o : List HeapEntry) (cf : ParentMap) (g f : ScoreMap)
      (v : List Coord) (nv : Nat) (ev : List VisEvent)
      (r : Option (List Coord)) (s : Stats) (e : List VisEvent),
      astarLoop m false fuel o cf g f v nv ev = some (r, s, e) → e = ev
  | 0, _, _, _, _, _, _, _, _, _, _ => by intro h; exact absurd h (by simp [astarLoop])
  | _ + 1, [], _, _, _, _, _, _, _, _, _ => by
      intro h
      simp only [astarLoop, Option.some.injEq, Prod.mk.injEq] at h
      exact h.2.2.symm
  | fuel + 1, entry :: open_rest, cf, g, f, v, nv, ev, r, s, e => by
      intro h
      simp only [astarLoop, Bool.false_eq_true, false_and, if_false] at h
      by_cases hv : entry.2 ∈ v
      · simp only [if_pos hv] at h
        exact astarLoop_false_events m fuel _ _ _ _ _ _ _ _ _ _ h
      · simp only [if_neg hv] at h
        by_cases hg : entry.2 = m.goal
        · simp only [if_pos hg, Option.some.injEq, Prod.mk.injEq] at h
          exact h.2.2.symm
        · simp only [if_neg hg] at h
          exact astarLoop_false_events m fuel _ _ _ _ _ _ _ _ _ _ h

/-- Helper: found-path statistics of the A* loop. -/
theorem astarLoop_found_stats (m : Maze) (vis : Bool) :
    ∀ (fuel : Nat) (o : List HeapEntry) (cf : ParentMap) (g f : ScoreMap)
      (v : List Coord) (nv : Nat) (ev : List VisEvent)
      (r : Option (List Coord)) (s : Stats) (e : List VisEvent),
      astarLoop m vis fuel o cf g f v nv ev = some (r, s, e) →
        (s.path_found = true ↔ ∃ path, r = some path) ∧
          ∀ path, r = some path → s.path_length = path.length
  | 0, _, _, _, _, _, _, _, _, _, _ => by intro h; exact absurd h (by simp [astarLoop])
  | _ + 1, [], _, _, _, _, _, _, _, _, _ => by
      intro h
      simp only [astarLoop, Option.some.injEq, Prod.mk.injEq] at h
      obtain ⟨hr, hs, -⟩ := h
      subst hr hs
      simp
  | fuel + 1, entry :: open_rest, cf, g, f, v, nv, ev, r, s, e => by
      intro h
      simp only [astarLoop] at h
      by_cases hv : entry.2 ∈ v
      · simp only [if_pos hv] at h
        exact astarLoop_found_stats m vis fuel _ _ _ _ _ _ _ _ _ _ h
      · simp only [if_neg hv] at h
        by_cases hg : entry.2 = m.goal
        · simp only [if_pos hg, Option.some.injEq, Prod.mk.injEq] at h
          obtain ⟨hr, hs, -⟩ := h
          subst hr hs
          refine ⟨by simp, ?_⟩
          rintro path hpath
          cases hpath
          rfl
        · simp only [if_neg hg] at h
          exact astarLoop_found_stats m vis fuel _ _ _ _ _ _ _ _ _ _ h

/-- C7: with `visualize = false` no visualization hook call is made by any
of the three searches, and the returned path and every modelled statistics
field (algorithm, nodes visited, path length, path found; elapsed time is
not modelled) agree with the `visualize = true` run on the same maze. -/
theorem visualize_off_headless (m : Maze) :
    (∀ r s e, bfs m false = some (r, s, e) → e = []) ∧
    (bfs m false).map (fun r => (r.1, r.2.1)) =
      (bfs m true).map (fun r => (r.1, r.2.1)) ∧
    (∀ r s e, dfs m false = some (r, s, e) → e = []) ∧
    (dfs m false).map (fun r => (r.1, r.2.1)) =
      (dfs m true).map (fun r => (r.1, r.2.1)) ∧
    (∀ r s e, astar m false = some (r, s, e) → e = []) ∧
    (astar m false).map (fun r => (r.1, r.2.1)) =
      (astar m true).map (fun r => (r.1, r.2.1)) :=
  ⟨fun r s e h => bfsLoop_false_events m _ _ _ _ _ _ r s e h,
   bfsLoop_result_eq m false true _ _ _ _ _ _ _,
   fun r s e h => dfsLoop_false_events m _ _ _ _ _ _ r s e h,
   dfsLoop_result_eq m false true _ _ _ _ _ _ _,
   fun r s e h => astarLoop_false_events m _ _ _ _ _ _ _ _ r s e h,
   astarLoop_result_eq m false true _ _ _ _ _ _ _ _ _⟩

/-- Witness for C7: the headless BFS run on the example maze makes no
visualization calls. -/
theorem visualize_off_headless_witness : ([] : List VisEvent) = [] :=
  (visualize_off_headless exMaze).1 (some [(1, 1), (1, 2), (2, 2)])
    ⟨"BFS", 4, 3, true⟩ [] rfl

/-- C9: for each algorithm, a returned result has `path_found = true`
exactly when a path is returned, and then `path_length` counts the
coordinates of the returned path (edges plus one); when start equals goal
the returned path is the single start coordinate, of length 1. -/
theorem stats_path_length (m : Maze) (vis : Bool) :
    (∀ r s e, bfs m vis = some (r, s, e) →
      (s.path_found = true ↔ ∃ path, r = some path) ∧
        ∀ path, r = some path → s.path_length = path.length) ∧
    (∀ r s e, dfs m vis = some (r, s, e) →
      (s.path_found = true ↔ ∃ path, r = some path) ∧
        ∀ path, r = some path → s.path_length = path.length) ∧
    (∀ r s e, astar m vis = some (r, s, e) →
      (s.path_found = true ↔ ∃ path, r = some path) ∧
        ∀ path, r = some path → s.path_length = path.length) ∧
    (m.start = m.goal →
      (∃ s e, bfs m vis = some (some [m.start], s, e) ∧ s.path_length = 1) ∧
      (∃ s e, dfs m vis = some (some [m.start], s, e) ∧ s.path_length = 1) ∧
      (∃ s e, astar m vis = some (some [m.start], s, e) ∧ s.path_length = 1)) := by
  refine ⟨fun r s e h => bfsLoop_found_stats m vis _ _ _ _ _ _ r s e h,
    fun r s e h => dfsLoop_found_stats m vis _ _ _ _ _ _ r s e h,
    fun r s e h => astarLoop_found_stats m vis _ _ _ _ _ _ _ _ r s e h, fun hsg => ?_⟩
  refine ⟨⟨⟨"BFS", 1, 1, true⟩, [], ?_, rfl⟩, ⟨⟨"DFS", 1, 1, true⟩, [], ?_, rfl⟩,
    ⟨⟨"A*", 1, 1, true⟩, [], ?_, rfl⟩⟩
  · simp [bfs, bfsFuel, bfsLoop, ← hsg, reconstruct_path, reconstructLoop, parentGet,
      List.find?]
  · simp [dfs, bfsFuel, dfsLoop, ← hsg, reconstruct_path, reconstructLoop, parentGet,
      List.find?]
  · simp [astar, astarFuel, astarLoop, astarInitOpen, astarInitG, astarInitF, ← hsg,
      reconstruct_path, reconstructLoop, parentGet, List.find?]

/-- Witness for C9 at the example maze and the degenerate case. -/
theorem stats_path_length_witness :
    ((⟨"BFS", 4, 3, true⟩ : Stats).path_found = true ↔
      ∃ path, (some [((1 : Int), (1 : Int)), (1, 2), (2, 2)] :
        Option (List Coord)) = some path) ∧
    ∀ path, (some [((1 : Int), (1 : Int)), (1, 2), (2, 2)] :
      Option (List Coord)) = some path →
        (⟨"BFS", 4, 3, true⟩ : Stats).path_length = path.length :=
  (stats_path_length exMaze true).1 (some [(1, 1), (1, 2), (2, 2)])
    ⟨"BFS", 4, 3, true⟩ [(1, 2, "BFS"), (2, 1, "BFS"), (2, 2, "BFS")] rfl

/-- C5: `run_algorithm` matches its algorithm-name argument
case-insensitively against BFS, DFS, ASTAR and A*, routing each accepted
name to the corresponding search, and any name outside this set produces the
`ValueError` immediately, without running any search. -/
theorem run_algorithm_dispatch (m : Maze) (name : String) (visualize : Bool) :
    (strUpper name = "BFS" → run_algorithm m name visualize = .ok (bfs m visualize)) ∧
    (strUpper name = "DFS" → run_algorithm m name visualize = .ok (dfs m visualize)) ∧
    (strUpper name = "ASTAR" ∨ strUpper name = "A*" →
      run_algorithm m name visualize = .ok (astar m visualize)) ∧
    (strUpper name ∉ (["BFS", "DFS", "ASTAR", "A*"] : List String) →
      run_algorithm m name visualize =
        .error ("Unknown algorithm: " ++ strUpper name)) := by
  refine ⟨fun h => by simp [run_algorithm, h], fun h => by simp [run_algorithm, h],
    fun h => ?_, fun h => ?_⟩
  · rcases h with h | h <;> simp [run_algorithm, h]
  · simp only [List.mem_cons, List.not_mem_nil, or_false, not_or] at h
    obtain ⟨h1, h2, h3, h4⟩ := h
    simp [run_algorithm, h1, h2, h3, h4]

/-- Witness for C5 at concrete names. -/
theorem run_algorithm_dispatch_witness :
    run_algorithm exMaze "bfs" true = .ok (bfs exMaze true) ∧
    run_algorithm exMaze "Dfs" true = .ok (dfs exMaze true) ∧
    run_algorithm exMaze "a*" true = .ok (astar exMaze true) ∧
    run_algorithm exMaze "dijkstra" true =
      .error ("Unknown algorithm: " ++ strUpper "dijkstra") :=
  ⟨(run_algorithm_dispatch exMaze "bfs" true).1 (by decide),
   (run_algorithm_dispatch exMaze "Dfs" true).2.1 (by decide),
   (run_algorithm_dispatch exMaze "a*" true).2.2.1 (Or.inr (by decide)),
   (run_algorithm_dispatch exMaze "dijkstra" true).2.2.2 (by decide)⟩

/-- C8 counterexample: the A* frontier is seeded with the entry
`(0, start)`, whose priority key `0` differs from the Manhattan distance
from start to goal (here `2`), refuting the claimed seed entry
`(heuristic(start, goal), start)`. -/
theorem astar_initial_frontier_counterexample :
    astarInitOpen exMaze = [(0, exMaze.start)] ∧
    manhattan_distance exMaze.start exMaze.goal = 2 ∧
    astarInitOpen exMaze ≠
      [(manhattan_distance exMaze.start exMaze.goal, exMaze.start)] := by
  decide

/-- C8 amended: at the start of every A* run the frontier holds exactly the
single entry `(0, start)` (the heuristic value is recorded in the `f_score`
dictionary entry of the start instead of the seeded priority key), the
`g_score` map is seeded with start mapped to `0`, and the closed set is
initially empty. -/
theorem astar_initial_state (m : Maze) (visualize : Bool) :
    astarInitOpen m = [(0, m.start)] ∧
    astarInitG m = [(m.start, 0)] ∧
    astarInitF m = [(m.start, manhattan_distance m.start m.goal)] ∧
    astar m visualize =
      astarLoop m visualize (astarFuel m) [(0, m.start)] [] [(m.start, 0)]
        [(m.start, manhattan_distance m.start m.goal)] [] 0 [] :=
  ⟨rfl, rfl, rfl, rfl⟩

/-- Helper: the explicit meaning of the Python tuple comparison. -/
theorem entryLe_iff (a b : HeapEntry) :
    entryLe a b = true ↔
      a.1 < b.1 ∨ (a.1 = b.1 ∧ (a.2.1 < b.2.1 ∨ (a.2.1 = b.2.1 ∧ a.2.2 ≤ b.2.2))) := by
  simp [entryLe, Bool.or_eq_true, Bool.and_eq_true, decide_eq_true_eq]

/-- Helper: the tuple order is reflexive. -/
theorem entryLe_refl (a : HeapEntry) : entryLe a a = true := by
  rw [entryLe_iff]; omega

/-- Helper: the tuple order is total. -/
theorem entryLe_total (a b : HeapEntry) : entryLe a b = true ∨ entryLe b a = true := by
  rw [entryLe_iff, entryLe_iff]; omega

/-- Helper: the tuple order is transitive. -/
theorem entryLe_trans {a b c : HeapEntry} (hab : entryLe a b = true)
    (hbc : entryLe b c = true) : entryLe a c = true := by
  rw [entryLe_iff] at *; omega

/-- Helper: membership after a heap push. -/
theorem mem_heappush (x a : HeapEntry) :
    ∀ l, a ∈ heappush x l ↔ a = x ∨ a ∈ l
  | [] => by simp [heappush]
  | y :: ys => by
      unfold heappush
      by_cases h : entryLe x y = true
      · simp [if_pos h]
      · simp [if_neg h, mem_heappush x a ys]
        tauto

/-- Helper: a heap push preserves sortedness. -/
theorem heappush_sorted (x : HeapEntry) :
    ∀ l, HeapSorted l → HeapSorted (heappush x l)
  | [], _ => List.pairwise_singleton _ _
  | y :: ys, h => by
      replace h := List.pairwise_cons.mp h
      unfold heappush
      by_cases hxy : entryLe x y = true
      · rw [if_pos hxy]
        refine List.Pairwise.cons ?_ (List.Pairwise.cons h.1 h.2)
        intro b hb
        rcases List.mem_cons.mp hb with hbx | hb
        · rw [hbx]
          exact hxy
        · exact entryLe_trans hxy (h.1 b hb)
      · rw [if_neg hxy]
        refine List.Pairwise.cons ?_ (heappush_sorted x ys h.2)
        intro b hb
        rcases (mem_heappush x b ys).mp hb with hbx | hb
        · rw [hbx]
          exact (entryLe_total x y).resolve_left hxy
        · exact h.1 b hb

/-- Helper: one step of the A* neighbor loop preserves heap sortedness. -/
theorem astarStep_sorted (m : Maze) (current : Coord) (g_current : Nat)
    (visited : List Coord) (acc : List HeapEntry × ParentMap × ScoreMap × ScoreMap)
    (n : Coord) (h : HeapSorted acc.1) :
    HeapSorted (astarStep m current g_current visited acc n).1 := by
  unfold astarStep
  by_cases h1 : n ∈ visited
  · simpa [if_pos h1] using h
  · simp only [if_neg h1]
    by_cases h2 :
        (match scoreGet? acc.2.2.1 n with
          | none => true
          | some gv => decide (g_current + 1 < gv)) = true
    · simpa [h2] using heappush_sorted _ acc.1 h
    · simpa [h2] using h

/-- Helper: the A* neighbor loop preserves heap sortedness. -/
theorem astarExpand_sorted (m : Maze) (current : Coord) (g_current : Nat)
    (visited : List Coord) :
    ∀ (ns : List Coord) (acc : List HeapEntry × ParentMap × ScoreMap × ScoreMap),
      HeapSorted acc.1 →
      HeapSorted ((ns.foldl (astarStep m current g_current visited) acc).1)
  | [], _, h => h
  | n :: ns, acc, h => by
      rw [List.foldl_cons]
      exact astarExpand_sorted m current g_current visited ns _
        (astarStep_sorted m current g_current visited acc n h)

/-- C10: frontier entries are `(f_score, (row, col))` pairs kept ordered by
the componentwise lexicographic tuple comparison: the initial frontier is
ordered, every push of the A* neighbor loop keeps it ordered, and the entry
the loop pops (the head) is minimal, so that among entries sharing the
minimum `f_score` the lexicographically smallest coordinate (row first,
then column) is popped first. -/
theorem astar_heap_tiebreak :
    (∀ m : Maze, HeapSorted (astarInitOpen m)) ∧
    (∀ (x : HeapEntry) (l : List HeapEntry), HeapSorted l → HeapSorted (heappush x l)) ∧
    (∀ (m : Maze) (current : Coord) (g_current : Nat) (visited : List Coord)
        (acc : List HeapEntry × ParentMap × ScoreMap × ScoreMap), HeapSorted acc.1 →
        HeapSorted (astarExpand m current g_current visited acc).1) ∧
    (∀ (e : HeapEntry) (l : List HeapEntry), HeapSorted (e :: l) →
      ∀ e' ∈ e :: l, entryLe e e' = true ∧
        (e'.1 = e.1 → e.2.1 < e'.2.1 ∨ (e.2.1 = e'.2.1 ∧ e.2.2 ≤ e'.2.2))) := by
  refine ⟨fun m => List.pairwise_singleton _ _, fun x l h => heappush_sorted x l h,
    fun m current g_current visited acc h =>
      astarExpand_sorted m current g_current visited _ acc h, ?_⟩
  intro e l h e' he'
  have hle : entryLe e e' = true := by
    rcases List.mem_cons.mp he' with hee' | he'
    · rw [hee']
      exact entryLe_refl e
    · exact (List.pairwise_cons.mp h).1 e' he'
  refine ⟨hle, fun hf => ?_⟩
  rw [entryLe_iff] at hle
  omega

/-- Witness for C10: with two frontier entries of equal f-score 2, the one
with the lexicographically smaller coordinate is at the head. -/
theorem astar_heap_tiebreak_witness :
    entryLe (2, ((1 : Int), (2 : Int))) (2, ((2 : Int), (1 : Int))) = true ∧
    ((2, ((2 : Int), (1 : Int))).1 = (2, ((1 : Int), (2 : Int))).1 →
      (1 : Int) < 2 ∨ ((1 : Int) = 2 ∧ (2 : Int) ≤ 1)) :=
  astar_heap_tiebreak.2.2.2 (2, (1, 2)) [(2, (2, 1))]
    (by simp [HeapSorted, entryLe_iff]) (2, (2, 1)) (by simp)

end MazeSolver

namespace MazeSolver

/-! Parent map and reconstruction lemmas. -/

/-- Helper: dictionary lookup on a prepended parent entry. -/
theorem parentGet_cons (a : Coord) (v : Option Coord) (l : ParentMap) (c : Coord) :
    parentGet ((a, v) :: l) c = if c = a then v else parentGet l c := by
  unfold parentGet
  rcases eq_or_ne c a with h | h
  · simp [List.find?_cons, h]
  · simp [List.find?_cons, Ne.symm h, h]

/-- Helper: key position on a prepended parent entry. -/
theorem keyIdx_cons (a : Coord) (v : Option Coord) (l : ParentMap) (c : Coord) :
    keyIdx ((a, v) :: l) c = if c = a then 0 else keyIdx l c + 1 := by
  unfold keyIdx
  rcases eq_or_ne c a with h | h
  · simp [List.findIdx_cons, h]
  · simp [List.findIdx_cons, Ne.symm h, h]

/-- Helper: the key position never exceeds the map length. -/
theorem keyIdx_le_length (l : ParentMap) (c : Coord) : keyIdx l c ≤ l.length := by
  unfold keyIdx
  exact List.findIdx_le_length _

/-- Helper: a key with a recorded parent occurs in the map. -/
theorem keyIdx_lt_length_of_parentGet :
    ∀ (l : ParentMap) (k p : Coord), parentGet l k = some p → keyIdx l k < l.length
  | [], k, p, h => by simp [parentGet] at h
  | (a, v) :: t, k, p, h => by
      rw [parentGet_cons] at h
      rw [keyIdx_cons]
      rcases eq_or_ne k a with hk | hk
      · simp [hk]
      · rw [if_neg hk]
        rw [if_neg hk] at h
        have := keyIdx_lt_length_of_parentGet t k p h
        simpa using Nat.succ_lt_succ this

/-- Helper: inserting a fresh key that no existing parent pointer targets,
with a parent other than itself, keeps the map ordered. -/
theorem ParentOrdered.insert {l : ParentMap} {k v : Coord}
    (h : ParentOrdered l) (hvk : v ≠ k)
    (hnotval : ∀ k₀ p₀, parentGet l k₀ = some p₀ → p₀ ≠ k) :
    ParentOrdered ((k, some v) :: l) := by
  intro k₀ p₀ hget
  rw [parentGet_cons] at hget
  rw [keyIdx_cons, keyIdx_cons]
  rcases eq_or_ne k₀ k with hk₀ | hk₀
  · rw [if_pos hk₀]
    rw [if_pos hk₀] at hget
    cases hget
    rw [if_neg hvk]
    exact Nat.succ_pos _
  · rw [if_neg hk₀]
    rw [if_neg hk₀] at hget
    rw [if_neg (hnotval k₀ p₀ hget)]
    exact Nat.succ_lt_succ (h k₀ p₀ hget)

/-- Helper: the reconstruction loop on an ordered parent map produces the
parent chain of its argument: it appends a nonempty chain that starts at the
argument, follows parent pointers, and ends at a coordinate with no
parent pointer. -/
theorem reconstructLoop_spec (l : ParentMap) (hord : ParentOrdered l) :
    ∀ (n : Nat) (c : Coord), l.length - keyIdx l c ≤ n →
      ∀ fuel : Nat, l.length - keyIdx l c < fuel →
      ∃ out : List Coord,
        (∀ acc, reconstructLoop l fuel (some c) acc = acc ++ out) ∧
        out.head? = some c ∧
        List.Chain' (fun a b => parentGet l a = some b) out ∧
        ∃ hne : out ≠ [], parentGet l (out.getLast hne) = none := by
  intro n
  induction n with
  | zero =>
      intro c hc fuel hfuel
      obtain ⟨f, rfl⟩ := Nat.exists_eq_succ_of_ne_zero (Nat.pos_iff_ne_zero.mp
        (Nat.lt_of_le_of_lt (Nat.zero_le _) hfuel))
      cases hp : parentGet l c with
      | none =>
          refine ⟨[c], fun acc => ?_, rfl, List.chain'_singleton c, by simp, by simpa⟩
          simp [reconstructLoop, hp]
      | some p =>
          exfalso
          have h1 := hord c p hp
          have h2 := keyIdx_lt_length_of_parentGet l c p hp
          omega
  | succ n ih =>
      intro c hc fuel hfuel
      obtain ⟨f, rfl⟩ := Nat.exists_eq_succ_of_ne_zero (Nat.pos_iff_ne_zero.mp
        (Nat.lt_of_le_of_lt (Nat.zero_le _) hfuel))
      cases hp : parentGet l c with
      | none =>
          refine ⟨[c], fun acc => ?_, rfl, List.chain'_singleton c, by simp, by simpa⟩
          simp [reconstructLoop, hp]
      | some p =>
          have h1 := hord c p hp
          have h2 := keyIdx_lt_length_of_parentGet l c p hp
          have h3 : l.length - keyIdx l p ≤ n := by omega
          have h4 : l.length - keyIdx l p < f := by omega
          obtain ⟨out, hout, hhead, hchain, hne, hlast⟩ := ih p h3 f h4
          refine ⟨c :: out, fun acc => ?_, rfl, ?_, List.cons_ne_nil c out, ?_⟩
          · show reconstructLoop l f (parentGet l c) (acc ++ [c]) = acc ++ c :: out
            rw [hp, hout (acc ++ [c])]
            simp
          · refine List.chain'_cons'.mpr ⟨?_, hchain⟩
            intro b hb
            have hb' : b = p := by
              rw [hhead] at hb
              exact (by simpa using hb : p = b).symm
            rw [hb']
            exact hp
          · rw [List.getLast_cons hne]
            exact hlast

/-- Helper: the reconstructed path is the reversed parent chain of the
goal. -/
theorem reconstruct_path_spec (l : ParentMap) (hord : ParentOrdered l)
    (start goal : Coord) :
    ∃ out : List Coord,
      reconstruct_path l start goal = out.reverse ∧
      out.head? = some goal ∧
      List.Chain' (fun a b => parentGet l a = some b) out ∧
      ∃ hne : out ≠ [], parentGet l (out.getLast hne) = none := by
  obtain ⟨out, hout, hrest⟩ := reconstructLoop_spec l hord l.length goal
    (Nat.sub_le _ _) (l.length + 1)
    (Nat.lt_succ_of_le (Nat.sub_le _ _))
  exact ⟨out, by rw [reconstruct_path, hout []]; rfl, hrest⟩

/-- Helper: a parent chain whose head is visited stays inside the visited
set, provided all parent values are visited. -/
theorem chain_subset_visited (l : ParentMap) (v : List Coord)
    (hvals : ∀ k p, parentGet l k = some p → p ∈ v) :
    ∀ out : List Coord, List.Chain' (fun a b => parentGet l a = some b) out →
      ∀ c, out.head? = some c → c ∈ v → ∀ x ∈ out, x ∈ v
  | [], _, _, _, _, _, h => absurd h (List.not_mem_nil _)
  | [a], _, c, hc, hcv, x, hx => by
      have hac : a = c := by simpa using hc
      have hxa : x = a := by simpa using hx
      rw [hxa, hac]
      exact hcv
  | a :: b :: t, hchain, c, hc, hcv, x, hx => by
      have hab : parentGet l a = some b := (List.chain'_cons.mp hchain).1
      have hbv : b ∈ v := hvals a b hab
      rcases List.mem_cons.mp hx with hxa | hx
      · have hac : a = c := by simpa using hc
        rw [hxa, hac]
        exact hcv
      · exact chain_subset_visited l v hvals (b :: t)
          (List.chain'_cons.mp hchain).2 b rfl hbv x hx

/-- Helper: an ordered parent map has duplicate free chains. -/
theorem chain_nodup (l : ParentMap) (hord : ParentOrdered l)
    (out : List Coord)
    (hchain : List.Chain' (fun a b => parentGet l a = some b) out) : out.Nodup := by
  haveI : IsTrans Coord (fun a b => keyIdx l a < keyIdx l b) :=
    ⟨fun _ _ _ => Nat.lt_trans⟩
  have h1 : List.Chain' (fun a b => keyIdx l a < keyIdx l b) out :=
    hchain.imp fun a b h => hord a b h
  have h2 := List.chain'_iff_pairwise.mp h1
  exact h2.imp fun h => by
    intro he
    rw [he] at h
    omega

/-- Helper: the last element of a parent chain is the start when every
visited coordinate is the start or has a parent pointer. -/
theorem chain_last_eq_start (l : ParentMap) (s : Coord) (v : List Coord)
    (hvals : ∀ k p, parentGet l k = some p → p ∈ v)
    (hvp : ∀ c ∈ v, c = s ∨ ∃ p, parentGet l c = some p) :
    ∀ out : List Coord, List.Chain' (fun a b => parentGet l a = some b) out →
      ∀ hne : out ≠ [], parentGet l (out.getLast hne) = none →
      ∀ c, out.head? = some c → (c = s ∨ ∃ p, parentGet l c = some p) →
      out.getLast hne = s
  | [], _, hne, _, _, _, _ => absurd rfl hne
  | [a], _, hne, hlast, c, hc, hcd => by
      have hac : a = c := by simpa using hc
      have hla : [a].getLast hne = a := rfl
      rw [hla] at hlast ⊢
      rcases hac ▸ hcd with h | ⟨p, hp⟩
      · exact h
      · rw [hp] at hlast
        cases hlast
  | a :: b :: t, hchain, hne, hlast, c, hc, hcd => by
      have hab : parentGet l a = some b := (List.chain'_cons.mp hchain).1
      have hbv : b ∈ v := hvals a b hab
      have h1 : (a :: b :: t).getLast hne = (b :: t).getLast (List.cons_ne_nil b t) :=
        List.getLast_cons (List.cons_ne_nil b t)
      rw [h1] at hlast ⊢
      exact chain_last_eq_start l s v hvals hvp (b :: t)
        (List.chain'_cons.mp hchain).2 (List.cons_ne_nil b t) hlast b rfl (hvp b hbv)

/-- Helper: the length of a parent chain whose steps each increase an
attached quantity by exactly one, counted from a last element carrying
zero. -/
theorem chain_length_of_exact (l : ParentMap) (D : Coord → Nat → Prop)
    (hstep : ∀ a b, parentGet l a = some b →
      ∀ da db, D a da → D b db → da = db + 1)
    (huniq : ∀ x d d', D x d → D x d' → d = d') :
    ∀ out : List Coord, List.Chain' (fun a b => parentGet l a = some b) out →
      (∀ x ∈ out, ∃ d, D x d) →
      ∀ hne : out ≠ [], D (out.getLast hne) 0 →
      ∀ c dc, out.head? = some c → D c dc → out.length = dc + 1
  | [], _, _, hne, _, _, _, _, _ => absurd rfl hne
  | [a], _, _, hne, hlast, c, dc, hc, hdc => by
      have hac : a = c := by simpa using hc
      have hla : [a].getLast hne = a := rfl
      rw [hla] at hlast
      have : dc = 0 := huniq c dc 0 hdc (hac ▸ hlast)
      simp [this]
  | a :: b :: t, hchain, hex, hne, hlast, c, dc, hc, hdc => by
      have hab : parentGet l a = some b := (List.chain'_cons.mp hchain).1
      obtain ⟨db, hdb⟩ := hex b (by simp)
      have hac : a = c := by simpa using hc
      have hstep' : dc = db + 1 := hstep a b hab dc db (hac ▸ hdc) hdb
      have h1 : (a :: b :: t).getLast hne = (b :: t).getLast (List.cons_ne_nil b t) :=
        List.getLast_cons (List.cons_ne_nil b t)
      rw [h1] at hlast
      have ih := chain_length_of_exact l D hstep huniq (b :: t)
        (List.chain'_cons.mp hchain).2 (fun x hx => hex x (List.mem_cons_of_mem a hx))
        (List.cons_ne_nil b t) hlast b db rfl hdb
      simp only [List.length_cons] at ih ⊢
      omega

/-! Grid neighbor lemmas. -/

/-- Helper: the explicit value of the neighbor computation. -/
theorem get_neighbors_eq (m : Maze) (row col : Int) :
    m.get_neighbors row col =
      (if m.is_free_space row (col + 1) then [(row, col + 1)] else []) ++
      (if m.is_free_space (row + 1) col then [(row + 1, col)] else []) ++
      (if m.is_free_space row (col - 1) then [(row, col - 1)] else []) ++
      (if m.is_free_space (row - 1) col then [(row - 1, col)] else []) := by
  unfold Maze.get_neighbors DIRECTIONS
  simp only [List.foldl_cons, List.foldl_nil, add_zero, sub_eq_add_neg]
  split_ifs <;> simp

/-- Helper: membership in the neighbor list. -/
theorem mem_get_neighbors {m : Maze} {row col : Int} {x : Coord} :
    x ∈ m.get_neighbors row col ↔
      m.is_free_space x.1 x.2 = true ∧
        (x = (row, col + 1) ∨ x = (row + 1, col) ∨ x = (row, col - 1) ∨
          x = (row - 1, col)) := by
  rw [get_neighbors_eq]
  constructor
  · intro hx
    simp only [List.mem_append] at hx
    rcases hx with ((hx | hx) | hx) | hx <;> split_ifs at hx with h <;> simp_all
  · rintro ⟨hfree, hx⟩
    simp only [List.mem_append]
    rcases hx with hx | hx | hx | hx <;> rw [hx] at hfree <;> simp [hfree, hx]

/-- Helper: a neighbor is passable. -/
theorem free_of_mem_get_neighbors {m : Maze} {row col : Int} {x : Coord}
    (h : x ∈ m.get_neighbors row col) : m.is_free_space x.1 x.2 = true :=
  (mem_get_neighbors.mp h).1

/-- Helper: a passable cell is in bounds. -/
theorem valid_of_free {m : Maze} {row col : Int}
    (h : m.is_free_space row col = true) : m.is_valid_position row col = true := by
  unfold Maze.is_free_space at h
  simp only [Bool.and_eq_true] at h
  exact h.1

/-- Helper: a neighbor is one Manhattan step away. -/
theorem manhattan_of_mem_get_neighbors {m : Maze} {a x : Coord}
    (h : x ∈ m.get_neighbors a.1 a.2) : manhattan_distance a x = 1 := by
  rcases (mem_get_neighbors.mp h).2 with hx | hx | hx | hx <;>
    · rw [hx]
      unfold manhattan_distance
      simp

/-- Helper: at most four neighbors exist. -/
theorem get_neighbors_length_le (m : Maze) (row col : Int) :
    (m.get_neighbors row col).length ≤ 4 := by
  rw [get_neighbors_eq]
  simp only [List.length_append]
  split_ifs <;> simp

/-- Helper: the Manhattan distance obeys the triangle inequality. -/
theorem manhattan_triangle (a b c : Coord) :
    manhattan_distance a c ≤ manhattan_distance a b + manhattan_distance b c := by
  unfold manhattan_distance
  have h1 : a.1 - c.1 = (a.1 - b.1) + (b.1 - c.1) := by ring
  have h2 : a.2 - c.2 = (a.2 - b.2) + (b.2 - c.2) := by ring
  have h3 := Int.natAbs_add_le (a.1 - b.1) (b.1 - c.1)
  have h4 := Int.natAbs_add_le (a.2 - b.2) (b.2 - c.2)
  rw [h1, h2]
  omega

/-- Helper: the Manhattan distance is symmetric. -/
theorem manhattan_comm (a b : Coord) :
    manhattan_distance a b = manhattan_distance b a := by
  unfold manhattan_distance
  have h1 : (a.1 - b.1).natAbs = (b.1 - a.1).natAbs := by
    rw [← Int.natAbs_neg, neg_sub]
  have h2 : (a.2 - b.2).natAbs = (b.2 - a.2).natAbs := by
    rw [← Int.natAbs_neg, neg_sub]
  omega

/-- Helper: the heuristic is consistent along an edge taken backwards. -/
theorem manhattan_consistent {m : Maze} {y z : Coord} (goal : Coord)
    (h : z ∈ m.get_neighbors y.1 y.2) :
    manhattan_distance y goal ≤ 1 + manhattan_distance z goal := by
  have h1 := manhattan_triangle y z goal
  rw [manhattan_of_mem_get_neighbors h] at h1
  omega

/-! Walk and distance lemmas. -/

/-- Helper: a zero length walk stays put. -/
theorem PathTo.eq_of_zero {m : Maze} {a b : Coord} (h : PathTo m a b 0) : a = b := by
  cases h
  rfl

/-- Helper: a walk can be extended by one edge at its end. -/
theorem PathTo.snoc {m : Maze} {a b c : Coord} {n : Nat} (h : PathTo m a b n)
    (hbc : c ∈ m.get_neighbors b.1 b.2) : PathTo m a c (n + 1) := by
  induction h with
  | refl d => exact PathTo.step hbc (PathTo.refl c)
  | step hd _ ih => exact PathTo.step hd (ih hbc)

/-- Helper: a positive length walk decomposes at its last edge. -/
theorem PathTo.unsnoc {m : Maze} {a c : Coord} :
    ∀ {n : Nat}, PathTo m a c (n + 1) →
      ∃ y, PathTo m a y n ∧ c ∈ m.get_neighbors y.1 y.2
  | 0, h => by
      cases h with
      | step hab h0 =>
          cases h0
          exact ⟨a, PathTo.refl a, hab⟩
  | n + 1, h => by
      cases h with
      | step hab h0 =>
          obtain ⟨y, hy, hc⟩ := PathTo.unsnoc h0
          exact ⟨y, PathTo.step hab hy, hc⟩

/-- Helper: every reachable coordinate has a shortest distance. -/
theorem exists_shortestDist {m : Maze} {a b : Coord} (h : Reachable m a b) :
    ∃ n, shortestDist m a b n := by
  classical
  obtain ⟨n, hn⟩ := h
  have hex : ∃ k, PathTo m a b k := ⟨n, hn⟩
  exact ⟨Nat.find hex, Nat.find_spec hex, fun k hk => Nat.find_min' hex hk⟩

/-- Helper: shortest distances are unique. -/
theorem shortestDist_unique {m : Maze} {a b : Coord} {n n' : Nat}
    (h : shortestDist m a b n) (h' : shortestDist m a b n') : n = n' :=
  Nat.le_antisymm (h.2 n' h'.1) (h'.2 n h.1)

/-- Helper: the distance from a coordinate to itself is zero. -/
theorem shortestDist_self (m : Maze) (a : Coord) : shortestDist m a a 0 :=
  ⟨PathTo.refl a, fun k _ => Nat.zero_le k⟩

/-- Helper: distance zero forces equality. -/
theorem shortestDist_zero {m : Maze} {a b : Coord} (h : shortestDist m a b 0) :
    a = b :=
  h.1.eq_of_zero

/-- Helper: a coordinate at positive distance has a predecessor one step
closer on a shortest walk. -/
theorem shortestDist_pred {m : Maze} {s x : Coord} {n : Nat}
    (h : shortestDist m s x (n + 1)) :
    ∃ y, x ∈ m.get_neighbors y.1 y.2 ∧ shortestDist m s y n := by
  obtain ⟨y, hy, hx⟩ := h.1.unsnoc
  refine ⟨y, hx, hy, fun k hk => ?_⟩
  by_contra hlt
  exact absurd (h.2 (k + 1) (hk.snoc hx)) (by omega)

/-- Helper: distances grow by at most one along an edge. -/
theorem shortestDist_succ_le {m : Maze} {s y x : Coord} {dy dx : Nat}
    (hy : shortestDist m s y dy) (hx : shortestDist m s x dx)
    (hedge : x ∈ m.get_neighbors y.1 y.2) : dx ≤ dy + 1 :=
  hx.2 (dy + 1) (hy.1.snoc hedge)

end MazeSolver

namespace MazeSolver

/-! BFS expansion and counting lemmas. -/

/-- Helper: the BFS neighbor loop appends the fresh neighbors to the queue,
marks exactly those visited, and records their parents. -/
theorem bfsFold_structure (current : Coord) :
    ∀ (ns q v : List Coord) (l : ParentMap),
      ∃ fresh : List Coord,
        ns.foldl (bfsStep current) (q, v, l) =
          (q ++ fresh, fresh.reverse ++ v,
            (fresh.map fun n => (n, some current)).reverse ++ l) ∧
        fresh.Nodup ∧ (∀ n ∈ fresh, n ∈ ns ∧ n ∉ v) ∧
        (∀ nb ∈ ns, nb ∈ v ∨ nb ∈ fresh)
  | [], q, v, l => ⟨[], by simp, List.nodup_nil, by simp, by simp⟩
  | n :: t, q, v, l => by
      rw [List.foldl_cons]
      by_cases hn : n ∈ v
      · obtain ⟨fresh, heq, hnd, hmem, hcomp⟩ := bfsFold_structure current t q v l
        rw [show bfsStep current (q, v, l) n = (q, v, l) by
          unfold bfsStep; rw [if_pos hn]]
        refine ⟨fresh, heq, hnd, fun x hx => ⟨List.mem_cons_of_mem n (hmem x hx).1,
          (hmem x hx).2⟩, ?_⟩
        intro nb hnb
        rcases List.mem_cons.mp hnb with rfl | hnb
        · exact Or.inl hn
        · exact hcomp nb hnb
      · rw [show bfsStep current (q, v, l) n =
          (q ++ [n], n :: v, (n, some current) :: l) by
          unfold bfsStep; rw [if_neg hn]]
        obtain ⟨fresh, heq, hnd, hmem, hcomp⟩ :=
          bfsFold_structure current t (q ++ [n]) (n :: v) ((n, some current) :: l)
        refine ⟨n :: fresh, ?_, ?_, ?_, ?_⟩
        · rw [heq]
          have h1 : q ++ n :: fresh = (q ++ [n]) ++ fresh := by simp
          have h2 : (n :: fresh).reverse ++ v = fresh.reverse ++ (n :: v) := by simp
          have h3 : ((n :: fresh).map fun x => (x, some current)).reverse ++ l =
              (fresh.map fun x => (x, some current)).reverse ++ ((n, some current) :: l) := by
            simp
          rw [h1, h2, h3]
        · refine List.Nodup.cons ?_ hnd
          intro hmem'
          exact ((hmem n hmem').2) (List.mem_cons_self n v)
        · intro x hx
          rcases List.mem_cons.mp hx with rfl | hx
          · exact ⟨List.mem_cons_self x t, hn⟩
          · exact ⟨List.mem_cons_of_mem n (hmem x hx).1,
              fun hv => (hmem x hx).2 (List.mem_cons_of_mem n hv)⟩
        · intro nb hnb
          rcases List.mem_cons.mp hnb with rfl | hnb
          · exact Or.inr (List.mem_cons_self nb fresh)
          · rcases hcomp nb hnb with hv | hf
            · rcases List.mem_cons.mp hv with rfl | hv
              · exact Or.inr (List.mem_cons_self nb fresh)
              · exact Or.inl hv
            · exact Or.inr (List.mem_cons_of_mem n hf)

/-- Helper: the DFS neighbor loop pushes the fresh neighbors onto the stack,
marks exactly those visited, and records their parents. -/
theorem dfsFold_structure (current : Coord) :
    ∀ (ns st v : List Coord) (l : ParentMap),
      ∃ fresh : List Coord,
        ns.foldl (dfsStep current) (st, v, l) =
          (fresh.reverse ++ st, fresh.reverse ++ v,
            (fresh.map fun n => (n, some current)).reverse ++ l) ∧
        fresh.Nodup ∧ (∀ n ∈ fresh, n ∈ ns ∧ n ∉ v) ∧
        (∀ nb ∈ ns, nb ∈ v ∨ nb ∈ fresh)
  | [], st, v, l => ⟨[], by simp, List.nodup_nil, by simp, by simp⟩
  | n :: t, st, v, l => by
      rw [List.foldl_cons]
      by_cases hn : n ∈ v
      · obtain ⟨fresh, heq, hnd, hmem, hcomp⟩ := dfsFold_structure current t st v l
        rw [show dfsStep current (st, v, l) n = (st, v, l) by
          unfold dfsStep; rw [if_pos hn]]
        refine ⟨fresh, heq, hnd, fun x hx => ⟨List.mem_cons_of_mem n (hmem x hx).1,
          (hmem x hx).2⟩, ?_⟩
        intro nb hnb
        rcases List.mem_cons.mp hnb with rfl | hnb
        · exact Or.inl hn
        · exact hcomp nb hnb
      · rw [show dfsStep current (st, v, l) n =
          (n :: st, n :: v, (n, some current) :: l) by
          unfold dfsStep; rw [if_neg hn]]
        obtain ⟨fresh, heq, hnd, hmem, hcomp⟩ :=
          dfsFold_structure current t (n :: st) (n :: v) ((n, some current) :: l)
        refine ⟨n :: fresh, ?_, ?_, ?_, ?_⟩
        · rw [heq]
          have h1 : (n :: fresh).reverse ++ st = fresh.reverse ++ (n :: st) := by simp
          have h2 : (n :: fresh).reverse ++ v = fresh.reverse ++ (n :: v) := by simp
          have h3 : ((n :: fresh).map fun x => (x, some current)).reverse ++ l =
              (fresh.map fun x => (x, some current)).reverse ++ ((n, some current) :: l) := by
            simp
          rw [h1, h2, h3]
        · refine List.Nodup.cons ?_ hnd
          intro hmem'
          exact ((hmem n hmem').2) (List.mem_cons_self n v)
        · intro x hx
          rcases List.mem_cons.mp hx with rfl | hx
          · exact ⟨List.mem_cons_self x t, hn⟩
          · exact ⟨List.mem_cons_of_mem n (hmem x hx).1,
              fun hv => (hmem x hx).2 (List.mem_cons_of_mem n hv)⟩
        · intro nb hnb
          rcases List.mem_cons.mp hnb with rfl | hnb
          · exact Or.inr (List.mem_cons_self nb fresh)
          · rcases hcomp nb hnb with hv | hf
            · rcases List.mem_cons.mp hv with rfl | hv
              · exact Or.inr (List.mem_cons_self nb fresh)
              · exact Or.inl hv
            · exact Or.inr (List.mem_cons_of_mem n hf)

/-- Helper: parent lookup through a batch of fresh entries all pointing at
the same parent. -/
theorem parentGet_batch (current : Coord) :
    ∀ (fresh : List Coord) (l : ParentMap) (c : Coord),
      parentGet ((fresh.map fun n => (n, some current)).reverse ++ l) c =
        if c ∈ fresh then some current else parentGet l c
  | [], l, c => by simp
  | n :: t, l, c => by
      have h3 : ((n :: t).map fun x => (x, some current)).reverse ++ l =
          (t.map fun x => (x, some current)).reverse ++ ((n, some current) :: l) := by
        simp
      rw [h3, parentGet_batch current t ((n, some current) :: l) c, parentGet_cons]
      by_cases hct : c ∈ t
      · rw [if_pos hct, if_pos (List.mem_cons_of_mem n hct)]
      · rw [if_neg hct]
        by_cases hcn : c = n
        · rw [if_pos hcn, if_pos (hcn ▸ List.mem_cons_self n t)]
        · rw [if_neg hcn, if_neg (by
            intro h
            rcases List.mem_cons.mp h with h | h
            · exact hcn h
            · exact hct h)]

/-- Helper: inserting a batch of fresh keys pointing at an already visited
parent keeps the parent map ordered and its values visited. -/
theorem ordered_batch (current : Coord) (v₀ : List Coord) (hcur : current ∈ v₀) :
    ∀ (fresh : List Coord) (l : ParentMap),
      ParentOrdered l → (∀ k p, parentGet l k = some p → p ∈ v₀) →
      (∀ n ∈ fresh, n ∉ v₀) →
      ParentOrdered ((fresh.map fun n => (n, some current)).reverse ++ l) ∧
      (∀ k p, parentGet ((fresh.map fun n => (n, some current)).reverse ++ l) k =
        some p → p ∈ v₀)
  | [], l, hord, hvals, _ => ⟨by simpa using hord, by simpa using hvals⟩
  | n :: t, l, hord, hvals, hfresh => by
      have h3 : ((n :: t).map fun x => (x, some current)).reverse ++ l =
          (t.map fun x => (x, some current)).reverse ++ ((n, some current) :: l) := by
        simp
      rw [h3]
      have hn : n ∉ v₀ := hfresh n (List.mem_cons_self n t)
      have hord' : ParentOrdered ((n, some current) :: l) :=
        hord.insert (fun hc => hn (hc ▸ hcur))
          (fun k₀ p₀ hget hc => hn (hc ▸ hvals k₀ p₀ hget))
      have hvals' : ∀ k p, parentGet ((n, some current) :: l) k = some p → p ∈ v₀ := by
        intro k p hget
        rw [parentGet_cons] at hget
        by_cases hk : k = n
        · rw [if_pos hk] at hget
          cases hget
          exact hcur
        · rw [if_neg hk] at hget
          exact hvals k p hget
      exact ordered_batch current v₀ hcur t ((n, some current) :: l) hord' hvals'
        (fun x hx => hfresh x (List.mem_cons_of_mem n hx))

/-- Helper: a duplicate free list of in-bounds coordinates has at most
`rows * cols` elements. -/
theorem visited_card (m : Maze) (v : List Coord) (hnd : v.Nodup)
    (hval : ∀ c ∈ v, m.is_valid_position c.1 c.2 = true) :
    v.length ≤ m.rows * m.cols := by
  classical
  set S : Finset Coord :=
    ((Finset.range m.rows) ×ˢ (Finset.range m.cols)).image
      (fun p => ((p.1 : Int), (p.2 : Int))) with hS
  have hcard : S.card = m.rows * m.cols := by
    rw [hS, Finset.card_image_of_injective _ (fun a b hab => ?_), Finset.card_product,
      Finset.card_range, Finset.card_range]
    have h1 : ((a.1 : Int), (a.2 : Int)) = ((b.1 : Int), (b.2 : Int)) := hab
    have h2 : (a.1 : Int) = b.1 := congrArg Prod.fst h1
    have h3 : (a.2 : Int) = b.2 := congrArg Prod.snd h1
    have h4 : a.1 = b.1 := Int.ofNat_inj.mp h2
    have h5 : a.2 = b.2 := Int.ofNat_inj.mp h3
    exact Prod.ext h4 h5
  have hsub : v.toFinset ⊆ S := by
    intro c hc
    have hcv := hval c (List.mem_toFinset.mp hc)
    unfold Maze.is_valid_position at hcv
    simp only [Bool.and_eq_true, decide_eq_true_eq] at hcv
    obtain ⟨⟨⟨h1, h2⟩, h3⟩, h4⟩ := hcv
    rw [hS]
    refine Finset.mem_image.mpr ⟨(c.1.toNat, c.2.toNat), ?_, ?_⟩
    · refine Finset.mem_product.mpr ⟨Finset.mem_range.mpr ?_, Finset.mem_range.mpr ?_⟩
      · omega
      · omega
    · have hc1 : ((c.1.toNat : Nat) : Int) = c.1 := Int.toNat_of_nonneg h1
      have hc2 : ((c.2.toNat : Nat) : Int) = c.2 := Int.toNat_of_nonneg h3
      exact Prod.ext hc1 hc2
  calc v.length = v.toFinset.card := (List.toFinset_card_of_nodup hnd).symm
    _ ≤ S.card := Finset.card_le_card hsub
    _ = m.rows * m.cols := hcard

/-- Helper: a visited set closed under neighbor expansion contains every
coordinate reachable from one of its members. -/
theorem reach_closed {m : Maze} {v : List Coord}
    (hclosed : ∀ u ∈ v, ∀ nb ∈ m.get_neighbors u.1 u.2, nb ∈ v) :
    ∀ {a x : Coord} {n : Nat}, PathTo m a x n → a ∈ v → x ∈ v := by
  intro a x n h
  induction h with
  | refl c => exact fun h => h
  | step hab _ ih => exact fun ha => ih (hclosed _ ha _ hab)

/-- Helper: every element of a parent chain whose last element is passable
is passable, because non-last elements are grid neighbors of their
parents. -/
theorem chain_all_free {m : Maze} {l : ParentMap}
    (hadj : ∀ k p, parentGet l k = some p → k ∈ m.get_neighbors p.1 p.2) :
    ∀ out : List Coord, List.Chain' (fun a b => parentGet l a = some b) out →
      ∀ hne : out ≠ [], m.is_free_space (out.getLast hne).1 (out.getLast hne).2 = true →
      ∀ x ∈ out, m.is_free_space x.1 x.2 = true
  | [], _, hne, _, _, _ => absurd rfl hne
  | [a], _, hne, hlast, x, hx => by
      have hxa : x = a := by simpa using hx
      have hla : [a].getLast hne = a := rfl
      rw [hla] at hlast
      rw [hxa]
      exact hlast
  | a :: b :: t, hchain, hne, hlast, x, hx => by
      have hab : parentGet l a = some b := (List.chain'_cons.mp hchain).1
      have h1 : (a :: b :: t).getLast hne = (b :: t).getLast (List.cons_ne_nil b t) :=
        List.getLast_cons (List.cons_ne_nil b t)
      rw [h1] at hlast
      rcases List.mem_cons.mp hx with hxa | hx
      · rw [hxa]
        exact free_of_mem_get_neighbors (hadj a b hab)
      · exact chain_all_free hadj (b :: t) (List.chain'_cons.mp hchain).2
          (List.cons_ne_nil b t) hlast x hx

/-- Helper: under the parent map invariants, the reconstructed path is a
valid start-to-goal path, and its underlying chain is available for length
arguments. -/
theorem reconstruct_valid (m : Maze) (l : ParentMap) (v : List Coord)
    (hord : ParentOrdered l)
    (hvals : ∀ k p, parentGet l k = some p → p ∈ v)
    (hadj : ∀ k p, parentGet l k = some p → k ∈ m.get_neighbors p.1 p.2)
    (hvp : ∀ c ∈ v, c = m.start ∨ ∃ p, parentGet l c = some p)
    (hgoalv : m.goal ∈ v)
    (hfree : m.is_free_space m.start.1 m.start.2 = true) :
    ValidPath m (reconstruct_path l m.start m.goal) ∧
    ∃ out : List Coord, reconstruct_path l m.start m.goal = out.reverse ∧
      out.head? = some m.goal ∧
      List.Chain' (fun a b => parentGet l a = some b) out ∧
      (∀ x ∈ out, x ∈ v) ∧
      ∃ hne : out ≠ [], out.getLast hne = m.start := by
  obtain ⟨out, hpath, hhead, hchain, hne, hlastnone⟩ :=
    reconstruct_path_spec l hord m.start m.goal
  have hlast : out.getLast hne = m.start :=
    chain_last_eq_start l m.start v hvals hvp out hchain hne hlastnone m.goal hhead
      (hvp m.goal hgoalv)
  have hmem : ∀ x ∈ out, x ∈ v :=
    chain_subset_visited l v hvals out hchain m.goal hhead hgoalv
  have hfree_all : ∀ x ∈ out, m.is_free_space x.1 x.2 = true := by
    refine chain_all_free hadj out hchain hne ?_
    rw [hlast]
    exact hfree
  refine ⟨⟨?_, ?_, ?_, ?_, ?_⟩, out, hpath, hhead, hchain, hmem, hne, hlast⟩
  · rw [hpath, List.head?_reverse, List.getLast?_eq_getLast out hne, hlast]
  · rw [hpath, List.getLast?_reverse]
    exact hhead
  · rw [hpath]
    exact List.nodup_reverse.mpr (chain_nodup l hord out hchain)
  · rw [hpath]
    refine List.chain'_reverse.mpr ?_
    refine hchain.imp ?_
    intro a b hab
    exact ⟨hadj a b hab, manhattan_of_mem_get_neighbors (hadj a b hab)⟩
  · intro c hc
    rw [hpath, List.mem_reverse] at hc
    exact hfree_all c hc

/-- Helper: the master induction for the BFS loop, carrying the full BFS
invariant: any returned path is valid and shortest, the visit counter stays
within the cell count, and the no-path outcome happens exactly when the
goal is unreachable. -/
theorem bfsLoop_master (m : Maze) (vis : Bool) (hwf : m.WF) :
    ∀ (fuel : Nat) (q v : List Coord) (l : ParentMap) (nv : Nat) (ev : List VisEvent)
      (out : SearchReturn),
      BfsInv m q v l → nv + q.length ≤ v.length →
      bfsLoop m vis fuel q v l nv ev = some out →
      (∀ path, out.1 = some path → ValidPath m path ∧
        ∀ dg, shortestDist m m.start m.goal dg → path.length = dg + 1) ∧
      out.2.1.nodes_visited ≤ m.rows * m.cols ∧
      (out.1 = none → ¬ Reachable m m.start m.goal) ∧
      (¬ Reachable m m.start m.goal → out.1 = none)
  | 0, q, v, l, nv, ev, out, _, _, hrun => absurd hrun (by simp [bfsLoop])
  | fuel + 1, [], v, l, nv, ev, out, inv, hcount, hrun => by
      simp only [bfsLoop, Option.some.injEq] at hrun
      subst hrun
      have hcap := visited_card m v inv.nodup_v inv.valid_v
      refine ⟨by simp, by simpa using le_trans (by simpa using hcount) hcap, ?_, fun h => rfl⟩
      intro _ hreach
      have hclosed : ∀ u ∈ v, ∀ nb ∈ m.get_neighbors u.1 u.2, nb ∈ v := by
        intro u hu nb hnb
        exact inv.expanded u hu (List.not_mem_nil u) nb hnb
      obtain ⟨n, hn⟩ := hreach
      have hgoalv : m.goal ∈ v := reach_closed hclosed hn inv.start_mem
      exact absurd (inv.goal_in_q hgoalv) (List.not_mem_nil _)
  | fuel + 1, current :: rest, v, l, nv, ev, out, inv, hcount, hrun => by
      simp only [bfsLoop] at hrun
      have hcurv : current ∈ v := inv.q_sub_v current (List.mem_cons_self _ _)
      by_cases hg : current = m.goal
      · rw [if_pos hg] at hrun
        simp only [Option.some.injEq] at hrun
        subst hrun
        have hgoalv : m.goal ∈ v := hg ▸ hcurv
        obtain ⟨hvalid, chain, hpath, hhead, hchain, hmemv, hne, hlast⟩ :=
          reconstruct_valid m l v inv.ordered inv.vals_v inv.adj inv.v_parent hgoalv
            hwf.1
        have hcap := visited_card m v inv.nodup_v inv.valid_v
        refine ⟨?_, ?_, by simp, fun hnr => absurd (inv.reach_v current hcurv)
          (by rw [hg]; exact hnr)⟩
        · intro path hpatheq
          have hpath' : path = reconstruct_path l m.start m.goal := by
            simpa using hpatheq.symm
          subst hpath'
          refine ⟨hvalid, ?_⟩
          intro dg hdg
          have hlen : chain.length = dg + 1 := by
            refine chain_length_of_exact l (fun x d => shortestDist m m.start x d)
              ?_ ?_ chain hchain ?_ hne ?_ m.goal dg hhead hdg
            · intro a b hab da db hda hdb
              obtain ⟨d0, hb0, ha0⟩ := inv.dist_exact a b hab
              have h1 := shortestDist_unique hdb hb0
              have h2 := shortestDist_unique hda ha0
              omega
            · intro x d d' h1 h2
              exact shortestDist_unique h1 h2
            · intro x hx
              exact exists_shortestDist (inv.reach_v x (hmemv x hx))
            · rw [hlast]
              exact shortestDist_self m m.start
          rw [hpath, List.length_reverse, hlen]
        · have h1 : nv + 1 ≤ nv + (current :: rest).length := by simp
          exact le_trans (le_trans h1 hcount) hcap
      · rw [if_neg hg] at hrun
        unfold bfsExpand at hrun
        obtain ⟨fresh, heq, hfnd, hfmem, hfcomp⟩ :=
          bfsFold_structure current (m.get_neighbors current.1 current.2) rest v l
        rw [heq] at hrun
        -- Normalize the layering so the popped node sits in the first block.
        have hnorm : ∃ (d : Nat) (q₁t q₂ : List Coord),
            rest = q₁t ++ q₂ ∧ shortestDist m m.start current d ∧
            (∀ c ∈ q₁t, shortestDist m m.start c d) ∧
            (∀ c ∈ q₂, shortestDist m m.start c (d + 1)) ∧
            (∀ c ∈ v, ∀ dc, shortestDist m m.start c dc → dc ≤ d + 1) ∧
            (∀ x dx, shortestDist m m.start x dx → dx ≤ d → x ∈ v) := by
          obtain ⟨d, q₁, q₂, hsplit, hq₁, hq₂, hL1, hL2⟩ := inv.layer
          have hL2succ : ∀ (dd : Nat), (∀ c ∈ q₁ ++ q₂, shortestDist m m.start c (dd + 1)) →
              (∀ x dx, shortestDist m m.start x dx → dx ≤ dd → x ∈ v) →
              ∀ x dx, shortestDist m m.start x dx → dx ≤ dd + 1 → x ∈ v := by
            intro dd hall hLdd x dx hdx hle
            rcases Nat.lt_or_ge dx (dd + 1) with hlt | hge
            · exact hLdd x dx hdx (by omega)
            · have hdx' : dx = dd + 1 := by omega
              subst hdx'
              obtain ⟨y, hedge, hy⟩ := shortestDist_pred hdx
              have hyv : y ∈ v := hLdd y dd hy (le_refl dd)
              have hynq : y ∉ q₁ ++ q₂ := by
                intro hyq
                have := shortestDist_unique hy (hall y hyq)
                omega
              exact inv.expanded y hyv (hsplit ▸ hynq) x hedge
          rcases q₁ with _ | ⟨c₁, q₁t⟩
          · -- first block empty: everything in the queue is at level d + 1
            have hall : ∀ c ∈ ([] : List Coord) ++ q₂, shortestDist m m.start c (d + 1) := by
              simpa using hq₂
            have hq2cons : q₂ = current :: rest := by simpa using hsplit.symm
            have hcur : shortestDist m m.start current (d + 1) :=
              hq₂ current (by rw [hq2cons]; exact List.mem_cons_self _ _)
            refine ⟨d + 1, rest, [], by simp, hcur, ?_, by simp, ?_, ?_⟩
            · intro c hc
              exact hq₂ c (by rw [hq2cons]; exact List.mem_cons_of_mem _ hc)
            · intro c hc dc hdc
              rcases exists_shortestDist (inv.reach_v c hc) with ⟨dc', hdc'⟩
              have h1 := hL1 c hc dc hdc
              omega
            · exact hL2succ d hall hL2
          · -- first block nonempty: it must start with the popped node
            obtain ⟨hc₁, hrest⟩ : current = c₁ ∧ rest = q₁t ++ q₂ := by
              simpa using hsplit
            refine ⟨d, q₁t, q₂, hrest, ?_,
              fun c hc => hq₁ c (List.mem_cons_of_mem _ hc), hq₂, hL1, hL2⟩
            rw [hc₁]
            exact hq₁ c₁ (List.mem_cons_self _ _)
        obtain ⟨d, q₁t, q₂, hrest, hcurd, hq₁t, hq₂, hL1, hL2⟩ := hnorm
        -- Distances of the fresh nodes.
        have hfresh_d : ∀ n ∈ fresh, shortestDist m m.start n (d + 1) := by
          intro n hn
          obtain ⟨hnns, hnv⟩ := hfmem n hn
          obtain ⟨kc, hkc⟩ := inv.reach_v current hcurv
          obtain ⟨dn, hdn⟩ := exists_shortestDist ⟨kc + 1, hkc.snoc hnns⟩
          have hle : dn ≤ d + 1 := shortestDist_succ_le hcurd hdn hnns
          have hge : ¬ dn ≤ d := fun hle' => hnv (hL2 n dn hdn hle')
          have : dn = d + 1 := by omega
          exact this ▸ hdn
        have hfresh_valid : ∀ n ∈ fresh, m.is_valid_position n.1 n.2 = true := by
          intro n hn
          exact valid_of_free (free_of_mem_get_neighbors (hfmem n hn).1)
        have hbatch := ordered_batch current v hcurv fresh l inv.ordered inv.vals_v
          (fun n hn => (hfmem n hn).2)
        have hPG := parentGet_batch current fresh l
        -- The invariant for the next state.
        have inv' : BfsInv m (rest ++ fresh) (fresh.reverse ++ v)
            ((fresh.map fun n => (n, some current)).reverse ++ l) := by
          refine ⟨?_, ?_, ?_, ?_, ?_, ?_, ?_, ?_, ?_, ?_, ?_, ?_, ?_, ?_, ?_⟩
          · exact List.mem_append_right _ inv.start_mem
          · refine List.nodup_append.mpr ⟨List.nodup_reverse.mpr hfnd, inv.nodup_v, ?_⟩
            intro a ha hav
            exact (hfmem a (List.mem_reverse.mp ha)).2 hav
          · refine List.nodup_append.mpr ⟨(inv.nodup_q).of_cons, hfnd, ?_⟩
            intro a ha haf
            exact (hfmem a haf).2 (inv.q_sub_v a (List.mem_cons_of_mem _ ha))
          · intro c hc
            rcases List.mem_append.mp hc with hc | hc
            · exact hfresh_valid c (List.mem_reverse.mp hc)
            · exact inv.valid_v c hc
          · intro c hc
            rcases List.mem_append.mp hc with hc | hc
            · exact List.mem_append_right _ (inv.q_sub_v c (List.mem_cons_of_mem _ hc))
            · exact List.mem_append_left _ (List.mem_reverse.mpr hc)
          · intro c hc
            rcases List.mem_append.mp hc with hc | hc
            · obtain ⟨kc, hkc⟩ := inv.reach_v current hcurv
              exact ⟨kc + 1, hkc.snoc (hfmem c (List.mem_reverse.mp hc)).1⟩
            · exact inv.reach_v c hc
          · exact hbatch.1
          · rw [hPG m.start, if_neg (fun hs => (hfmem m.start hs).2 inv.start_mem)]
            exact inv.start_none
          · intro k p hkp
            rw [hPG k] at hkp
            by_cases hk : k ∈ fresh
            · rw [if_pos hk] at hkp
              cases hkp
              exact List.mem_append_right _ hcurv
            · rw [if_neg hk] at hkp
              exact List.mem_append_right _ (inv.vals_v k p hkp)
          · intro k p hkp
            rw [hPG k] at hkp
            by_cases hk : k ∈ fresh
            · rw [if_pos hk] at hkp
              cases hkp
              exact (hfmem k hk).1
            · rw [if_neg hk] at hkp
              exact inv.adj k p hkp
          · intro c hc
            rcases List.mem_append.mp hc with hc | hc
            · right
              refine ⟨current, ?_⟩
              rw [hPG c, if_pos (List.mem_reverse.mp hc)]
            · rcases inv.v_parent c hc with h | ⟨p, hp⟩
              · exact Or.inl h
              · right
                refine ⟨p, ?_⟩
                rw [hPG c, if_neg (fun hcf => (hfmem c hcf).2 hc)]
                exact hp
          · intro k p hkp
            rw [hPG k] at hkp
            by_cases hk : k ∈ fresh
            · rw [if_pos hk] at hkp
              cases hkp
              exact ⟨d, hcurd, hfresh_d k hk⟩
            · rw [if_neg hk] at hkp
              exact inv.dist_exact k p hkp
          · intro u hu hunq nb hnb
            rcases List.mem_append.mp hu with hu | hu
            · exact absurd (List.mem_append_right _ (List.mem_reverse.mp hu)) hunq
            · by_cases hucur : u = current
              · subst hucur
                rcases hfcomp nb hnb with h | h
                · exact List.mem_append_right _ h
                · exact List.mem_append_left _ (List.mem_reverse.mpr h)
              · have hunq' : u ∉ current :: rest := by
                  intro huq
                  rcases List.mem_cons.mp huq with h | h
                  · exact hucur h
                  · exact hunq (List.mem_append_left _ h)
                exact List.mem_append_right _ (inv.expanded u hu hunq' nb hnb)
          · intro hgoal
            rcases List.mem_append.mp hgoal with h | h
            · exact List.mem_append_right _ (List.mem_reverse.mp h)
            · have := inv.goal_in_q h
              rcases List.mem_cons.mp this with h' | h'
              · exact absurd h'.symm hg
              · exact List.mem_append_left _ h'
          · refine ⟨d, q₁t, q₂ ++ fresh, by rw [hrest]; simp, hq₁t, ?_, ?_, ?_⟩
            · intro c hc
              rcases List.mem_append.mp hc with hc | hc
              · exact hq₂ c hc
              · exact hfresh_d c hc
            · intro c hc dc hdc
              rcases List.mem_append.mp hc with hc | hc
              · have := shortestDist_unique hdc (hfresh_d c (List.mem_reverse.mp hc))
                omega
              · exact hL1 c hc dc hdc
            · intro x dx hdx hle
              exact List.mem_append_right _ (hL2 x dx hdx hle)
        have hcount' : (nv + 1) + (rest ++ fresh).length ≤ (fresh.reverse ++ v).length := by
          simp only [List.length_append, List.length_reverse]
          simp only [List.length_cons] at hcount
          omega
        exact bfsLoop_master m vis hwf fuel (rest ++ fresh) (fresh.reverse ++ v)
          ((fresh.map fun n => (n, some current)).reverse ++ l) (nv + 1) _ out inv'
          hcount' hrun

/-- Helper: the BFS invariant holds in the initial state. -/
theorem bfsInit_inv (m : Maze) (hwf : m.WF) :
    BfsInv m [m.start] [m.start] [(m.start, none)] := by
  have hPG : ∀ k, parentGet [(m.start, none)] k = none := by
    intro k
    rw [show ([(m.start, none)] : ParentMap) = (m.start, none) :: [] from rfl,
      parentGet_cons]
    split_ifs <;> simp [parentGet]
  refine ⟨List.mem_singleton_self _, List.nodup_singleton _, List.nodup_singleton _,
    ?_, ?_, ?_, ?_, hPG m.start, ?_, ?_, ?_, ?_, ?_, ?_, ?_⟩
  · intro c hc
    rw [List.mem_singleton.mp hc]
    exact valid_of_free hwf.1
  · intro c hc
    exact hc
  · intro c hc
    rw [List.mem_singleton.mp hc]
    exact ⟨0, PathTo.refl m.start⟩
  · intro k p hkp
    rw [hPG k] at hkp
    cases hkp
  · intro k p hkp
    rw [hPG k] at hkp
    cases hkp
  · intro k p hkp
    rw [hPG k] at hkp
    cases hkp
  · intro c hc
    exact Or.inl (List.mem_singleton.mp hc)
  · intro k p hkp
    rw [hPG k] at hkp
    cases hkp
  · intro u hu huq nb hnb
    exact absurd hu huq
  · intro h
    exact h
  · refine ⟨0, [m.start], [], by simp, ?_, by simp, ?_, ?_⟩
    · intro c hc
      rw [List.mem_singleton.mp hc]
      exact shortestDist_self m m.start
    · intro c hc dc hdc
      rw [List.mem_singleton.mp hc] at hdc
      have := shortestDist_unique hdc (shortestDist_self m m.start)
      omega
    · intro x dx hdx hle
      have hdx0 : dx = 0 := by omega
      rw [hdx0] at hdx
      rw [List.mem_singleton, ← shortestDist_zero hdx]

/-- Helper: the BFS loop returns a result once the fuel exceeds the number
of unvisited cells plus the queue length. -/
theorem bfsLoop_terminates (m : Maze) (vis : Bool) :
    ∀ (fuel : Nat) (q v : List Coord) (l : ParentMap) (nv : Nat) (ev : List VisEvent),
      v.Nodup → (∀ c ∈ v, m.is_valid_position c.1 c.2 = true) →
      m.rows * m.cols - v.length + q.length < fuel →
      ∃ out, bfsLoop m vis fuel q v l nv ev = some out
  | 0, q, v, l, nv, ev, _, _, hfuel => absurd hfuel (by omega)
  | fuel + 1, [], v, l, nv, ev, _, _, _ => ⟨_, rfl⟩
  | fuel + 1, current :: rest, v, l, nv, ev, hnd, hval, hfuel => by
      simp only [bfsLoop]
      by_cases hg : current = m.goal
      · rw [if_pos hg]
        exact ⟨_, rfl⟩
      · rw [if_neg hg]
        unfold bfsExpand
        obtain ⟨fresh, heq, hfnd, hfmem, hfcomp⟩ :=
          bfsFold_structure current (m.get_neighbors current.1 current.2) rest v l
        rw [heq]
        have hnd' : (fresh.reverse ++ v).Nodup := by
          refine List.nodup_append.mpr ⟨List.nodup_reverse.mpr hfnd, hnd, ?_⟩
          intro a ha hav
          exact (hfmem a (List.mem_reverse.mp ha)).2 hav
        have hval' : ∀ c ∈ fresh.reverse ++ v, m.is_valid_position c.1 c.2 = true := by
          intro c hc
          rcases List.mem_append.mp hc with hc | hc
          · exact valid_of_free (free_of_mem_get_neighbors
              (hfmem c (List.mem_reverse.mp hc)).1)
          · exact hval c hc
        have hcap := visited_card m (fresh.reverse ++ v) hnd' hval'
        refine bfsLoop_terminates m vis fuel (rest ++ fresh) (fresh.reverse ++ v)
          _ (nv + 1) _ hnd' hval' ?_
        simp only [List.length_append, List.length_reverse] at hcap ⊢
        simp only [List.length_cons] at hfuel
        omega

/-- Helper: the complete characterization of a BFS run on a well formed
maze. -/
theorem bfs_core (m : Maze) (vis : Bool) (hwf : m.WF) :
    ∃ out : SearchReturn, bfs m vis = some out ∧
      (∀ path, out.1 = some path → ValidPath m path ∧
        ∀ dg, shortestDist m m.start m.goal dg → path.length = dg + 1) ∧
      out.2.1.nodes_visited ≤ m.rows * m.cols ∧
      (out.1 = none → ¬ Reachable m m.start m.goal) ∧
      (¬ Reachable m m.start m.goal → out.1 = none) := by
  have hvalid : m.is_valid_position m.start.1 m.start.2 = true := valid_of_free hwf.1
  have hRC : 1 ≤ m.rows * m.cols := by
    unfold Maze.is_valid_position at hvalid
    simp only [Bool.and_eq_true, decide_eq_true_eq] at hvalid
    have h1 : 0 < m.rows := by omega
    have h2 : 0 < m.cols := by omega
    exact Nat.one_le_iff_ne_zero.mpr (Nat.mul_ne_zero (by omega) (by omega))
  obtain ⟨out, hout⟩ := bfsLoop_terminates m vis (bfsFuel m) [m.start] [m.start]
    [(m.start, none)] 0 [] (List.nodup_singleton _)
    (fun c hc => by rw [List.mem_singleton.mp hc]; exact hvalid)
    (by unfold bfsFuel; simp only [List.length_singleton]; omega)
  exact ⟨out, hout, bfsLoop_master m vis hwf (bfsFuel m) [m.start] [m.start]
    [(m.start, none)] 0 [] out (bfsInit_inv m hwf) (by simp) hout⟩

/-- C1: on every well formed maze whose goal is reachable from the start,
BFS returns a path, and the edge count of that path (its coordinate count
minus one) is the true shortest graph distance in edges from start to goal
over the passable cell adjacency graph. -/
theorem bfs_shortest (m : Maze) (vis : Bool) (hwf : m.WF)
    (hreach : Reachable m m.start m.goal) :
    ∃ (path : List Coord) (s : Stats) (e : List VisEvent) (dg : Nat),
      bfs m vis = some (some path, s, e) ∧
      shortestDist m m.start m.goal dg ∧
      path.length = dg + 1 := by
  obtain ⟨out, hout, hfound, _, hnone, _⟩ := bfs_core m vis hwf
  obtain ⟨dg, hdg⟩ := exists_shortestDist hreach
  cases hpath : out.1 with
  | none => exact absurd hreach (hnone hpath)
  | some path =>
      obtain ⟨_, hlen⟩ := hfound path hpath
      exact ⟨path, out.2.1, out.2.2, dg, by
        rw [hout]
        congr 1
        rw [← hpath], hdg, hlen dg hdg⟩

/-- Witness for C1 on the example maze: the returned path has three
coordinates, and the shortest distance is two edges. -/
theorem bfs_shortest_witness :
    ∃ (path : List Coord) (s : Stats) (e : List VisEvent) (dg : Nat),
      bfs exMaze true = some (some path, s, e) ∧
      shortestDist exMaze exMaze.start exMaze.goal dg ∧
      path.length = dg + 1 :=
  bfs_shortest exMaze true (by decide)
    ⟨2, PathTo.step (b := (1, 2)) (by decide)
      (PathTo.step (b := (2, 2)) (by decide) (PathTo.refl _))⟩

/-- Helper: the master induction for the DFS loop: any returned path is a
valid simple start-to-goal path, the visit counter stays within the cell
count, and an unreachable goal yields the no-path outcome. -/
theorem dfsLoop_master (m : Maze) (vis : Bool) (hwf : m.WF) :
    ∀ (fuel : Nat) (q v : List Coord) (l : ParentMap) (nv : Nat) (ev : List VisEvent)
      (out : SearchReturn),
      DfsInv m q v l → nv + q.length ≤ v.length →
      dfsLoop m vis fuel q v l nv ev = some out →
      (∀ path, out.1 = some path → ValidPath m path) ∧
      out.2.1.nodes_visited ≤ m.rows * m.cols ∧
      (¬ Reachable m m.start m.goal → out.1 = none)
  | 0, q, v, l, nv, ev, out, _, _, hrun => absurd hrun (by simp [dfsLoop])
  | fuel + 1, [], v, l, nv, ev, out, inv, hcount, hrun => by
      simp only [dfsLoop, Option.some.injEq] at hrun
      subst hrun
      have hcap := visited_card m v inv.nodup_v inv.valid_v
      exact ⟨by simp, by simpa using le_trans (by simpa using hcount) hcap, fun _ => rfl⟩
  | fuel + 1, current :: rest, v, l, nv, ev, out, inv, hcount, hrun => by
      simp only [dfsLoop] at hrun
      have hcurv : current ∈ v := inv.q_sub_v current (List.mem_cons_self _ _)
      by_cases hg : current = m.goal
      · rw [if_pos hg] at hrun
        simp only [Option.some.injEq] at hrun
        subst hrun
        have hgoalv : m.goal ∈ v := hg ▸ hcurv
        obtain ⟨hvalid, -⟩ :=
          reconstruct_valid m l v inv.ordered inv.vals_v inv.adj inv.v_parent hgoalv
            hwf.1
        have hcap := visited_card m v inv.nodup_v inv.valid_v
        refine ⟨?_, ?_, fun hnr => absurd (inv.reach_v current hcurv)
          (by rw [hg]; exact hnr)⟩
        · intro path hpatheq
          have hpath' : path = reconstruct_path l m.start m.goal := by
            simpa using hpatheq.symm
          subst hpath'
          exact hvalid
        · have h1 : nv + 1 ≤ nv + (current :: rest).length := by simp
          exact le_trans (le_trans h1 hcount) hcap
      · rw [if_neg hg] at hrun
        unfold dfsExpand at hrun
        obtain ⟨fresh, heq, hfnd, hfmem, hfcomp⟩ :=
          dfsFold_structure current (m.get_neighbors current.1 current.2).reverse rest v l
        rw [heq] at hrun
        have hfresh_nb : ∀ n ∈ fresh, n ∈ m.get_neighbors current.1 current.2 := by
          intro n hn
          exact List.mem_reverse.mp (hfmem n hn).1
        have hbatch := ordered_batch current v hcurv fresh l inv.ordered inv.vals_v
          (fun n hn => (hfmem n hn).2)
        have hPG := parentGet_batch current fresh l
        have inv' : DfsInv m (fresh.reverse ++ rest) (fresh.reverse ++ v)
            ((fresh.map fun n => (n, some current)).reverse ++ l) := by
          refine ⟨?_, ?_, ?_, ?_, ?_, ?_, ?_, ?_, ?_, ?_⟩
          · exact List.mem_append_right _ inv.start_mem
          · refine List.nodup_append.mpr ⟨List.nodup_reverse.mpr hfnd, inv.nodup_v, ?_⟩
            intro a ha hav
            exact (hfmem a (List.mem_reverse.mp ha)).2 hav
          · intro c hc
            rcases List.mem_append.mp hc with hc | hc
            · exact valid_of_free (free_of_mem_get_neighbors
                (hfresh_nb c (List.mem_reverse.mp hc)))
            · exact inv.valid_v c hc
          · intro c hc
            rcases List.mem_append.mp hc with hc | hc
            · exact List.mem_append_left _ hc
            · exact List.mem_append_right _ (inv.q_sub_v c (List.mem_cons_of_mem _ hc))
          · intro c hc
            rcases List.mem_append.mp hc with hc | hc
            · obtain ⟨kc, hkc⟩ := inv.reach_v current hcurv
              exact ⟨kc + 1, hkc.snoc (hfresh_nb c (List.mem_reverse.mp hc))⟩
            · exact inv.reach_v c hc
          · exact hbatch.1
          · rw [hPG m.start, if_neg (fun hs => (hfmem m.start hs).2 inv.start_mem)]
            exact inv.start_none
          · intro k p hkp
            rw [hPG k] at hkp
            by_cases hk : k ∈ fresh
            · rw [if_pos hk] at hkp
              cases hkp
              exact List.mem_append_right _ hcurv
            · rw [if_neg hk] at hkp
              exact List.mem_append_right _ (inv.vals_v k p hkp)
          · intro k p hkp
            rw [hPG k] at hkp
            by_cases hk : k ∈ fresh
            · rw [if_pos hk] at hkp
              cases hkp
              exact hfresh_nb k hk
            · rw [if_neg hk] at hkp
              exact inv.adj k p hkp
          · intro c hc
            rcases List.mem_append.mp hc with hc | hc
            · right
              refine ⟨current, ?_⟩
              rw [hPG c, if_pos (List.mem_reverse.mp hc)]
            · rcases inv.v_parent c hc with h | ⟨p, hp⟩
              · exact Or.inl h
              · right
                refine ⟨p, ?_⟩
                rw [hPG c, if_neg (fun hcf => (hfmem c hcf).2 hc)]
                exact hp
        have hcount' : (nv + 1) + (fresh.reverse ++ rest).length ≤
            (fresh.reverse ++ v).length := by
          simp only [List.length_append, List.length_reverse]
          simp only [List.length_cons] at hcount
          omega
        exact dfsLoop_master m vis hwf fuel (fresh.reverse ++ rest) (fresh.reverse ++ v)
          ((fresh.map fun n => (n, some current)).reverse ++ l) (nv + 1) _ out inv'
          hcount' hrun

/-- Helper: the DFS invariant holds in the initial state. -/
theorem dfsInit_inv (m : Maze) (hwf : m.WF) :
    DfsInv m [m.start] [m.start] [(m.start, none)] := by
  have hPG : ∀ k, parentGet [(m.start, none)] k = none := by
    intro k
    rw [show ([(m.start, none)] : ParentMap) = (m.start, none) :: [] from rfl,
      parentGet_cons]
    split_ifs <;> simp [parentGet]
  refine ⟨List.mem_singleton_self _, List.nodup_singleton _, ?_, ?_, ?_, ?_,
    hPG m.start, ?_, ?_, ?_⟩
  · intro c hc
    rw [List.mem_singleton.mp hc]
    exact valid_of_free hwf.1
  · intro c hc
    exact hc
  · intro c hc
    rw [List.mem_singleton.mp hc]
    exact ⟨0, PathTo.refl m.start⟩
  · intro k p hkp
    rw [hPG k] at hkp
    cases hkp
  · intro k p hkp
    rw [hPG k] at hkp
    cases hkp
  · intro k p hkp
    rw [hPG k] at hkp
    cases hkp
  · intro c hc
    exact Or.inl (List.mem_singleton.mp hc)

/-- Helper: the DFS loop returns a result once the fuel exceeds the number
of unvisited cells plus the stack height. -/
theorem dfsLoop_terminates (m : Maze) (vis : Bool) :
    ∀ (fuel : Nat) (q v : List Coord) (l : ParentMap) (nv : Nat) (ev : List VisEvent),
      v.Nodup → (∀ c ∈ v, m.is_valid_position c.1 c.2 = true) →
      m.rows * m.cols - v.length + q.length < fuel →
      ∃ out, dfsLoop m vis fuel q v l nv ev = some out
  | 0, q, v, l, nv, ev, _, _, hfuel => absurd hfuel (by omega)
  | fuel + 1, [], v, l, nv, ev, _, _, _ => ⟨_, rfl⟩
  | fuel + 1, current :: rest, v, l, nv, ev, hnd, hval, hfuel => by
      simp only [dfsLoop]
      by_cases hg : current = m.goal
      · rw [if_pos hg]
        exact ⟨_, rfl⟩
      · rw [if_neg hg]
        unfold dfsExpand
        obtain ⟨fresh, heq, hfnd, hfmem, hfcomp⟩ :=
          dfsFold_structure current (m.get_neighbors current.1 current.2).reverse rest v l
        rw [heq]
        have hnd' : (fresh.reverse ++ v).Nodup := by
          refine List.nodup_append.mpr ⟨List.nodup_reverse.mpr hfnd, hnd, ?_⟩
          intro a ha hav
          exact (hfmem a (List.mem_reverse.mp ha)).2 hav
        have hval' : ∀ c ∈ fresh.reverse ++ v, m.is_valid_position c.1 c.2 = true := by
          intro c hc
          rcases List.mem_append.mp hc with hc | hc
          · exact valid_of_free (free_of_mem_get_neighbors
              (List.mem_reverse.mp (hfmem c (List.mem_reverse.mp hc)).1))
          · exact hval c hc
        have hcap := visited_card m (fresh.reverse ++ v) hnd' hval'
        refine dfsLoop_terminates m vis fuel (fresh.reverse ++ rest) (fresh.reverse ++ v)
          _ (nv + 1) _ hnd' hval' ?_
        simp only [List.length_append, List.length_reverse] at hcap ⊢
        simp only [List.length_cons] at hfuel
        omega

/-- Helper: the complete characterization of a DFS run on a well formed
maze. -/
theorem dfs_core (m : Maze) (vis : Bool) (hwf : m.WF) :
    ∃ out : SearchReturn, dfs m vis = some out ∧
      (∀ path, out.1 = some path → ValidPath m path) ∧
      out.2.1.nodes_visited ≤ m.rows * m.cols ∧
      (¬ Reachable m m.start m.goal → out.1 = none) := by
  have hvalid : m.is_valid_position m.start.1 m.start.2 = true := valid_of_free hwf.1
  have hRC : 1 ≤ m.rows * m.cols := by
    unfold Maze.is_valid_position at hvalid
    simp only [Bool.and_eq_true, decide_eq_true_eq] at hvalid
    exact Nat.one_le_iff_ne_zero.mpr (Nat.mul_ne_zero (by omega) (by omega))
  obtain ⟨out, hout⟩ := dfsLoop_terminates m vis (bfsFuel m) [m.start] [m.start]
    [(m.start, none)] 0 [] (List.nodup_singleton _)
    (fun c hc => by rw [List.mem_singleton.mp hc]; exact hvalid)
    (by unfold bfsFuel; simp only [List.length_singleton]; omega)
  exact ⟨out, hout, dfsLoop_master m vis hwf (bfsFuel m) [m.start] [m.start]
    [(m.start, none)] 0 [] out (dfsInit_inv m hwf) (by simp) hout⟩

end MazeSolver

namespace MazeSolver

/-! A* lemmas. -/

/-- Helper: dictionary lookup on a prepended score entry. -/
theorem scoreGet_cons (a : Coord) (x : Nat) (g : ScoreMap) (c : Coord) :
    scoreGet? ((a, x) :: g) c = if c = a then some x else scoreGet? g c := by
  unfold scoreGet?
  rcases eq_or_ne c a with h | h
  · simp [List.find?_cons, h]
  · simp [List.find?_cons, Ne.symm h, h]

/-- Helper: a push keeps every previous heap entry. -/
theorem mem_heappush_of_mem {x a : HeapEntry} {l : List HeapEntry} (h : a ∈ l) :
    a ∈ heappush x l := (mem_heappush x a l).mpr (Or.inr h)

/-- Helper: the pushed entry is in the heap. -/
theorem self_mem_heappush (x : HeapEntry) (l : List HeapEntry) : x ∈ heappush x l :=
  (mem_heappush x x l).mpr (Or.inl rfl)

/-- Helper: a push grows the heap by one entry. -/
theorem heappush_length (x : HeapEntry) :
    ∀ l : List HeapEntry, (heappush x l).length = l.length + 1
  | [] => rfl
  | y :: ys => by
      unfold heappush
      split_ifs
      · rfl
      · simp [heappush_length x ys]

/-- Helper: the cover property of the A* frontier: every walk from the start
to an unclosed node is witnessed by a frontier entry whose priority is at
most the walk length plus the heuristic of the endpoint. -/
theorem astar_cover (m : Maze) (o : List HeapEntry) (cf : ParentMap) (g : ScoreMap)
    (v : List Coord) (inv : AstarInv m o cf g v) :
    ∀ (k : Nat) (z : Coord), PathTo m m.start z k → z ∉ v →
      ∃ e ∈ o, e.1 ≤ k + manhattan_distance z m.goal
  | 0, z, hz, hzv => by
      have hzs : m.start = z := hz.eq_of_zero
      rcases inv.init_or_start with ⟨-, ho, -, -⟩ | hs
      · refine ⟨(0, m.start), by rw [ho]; exact List.mem_singleton_self _, ?_⟩
        simp
      · exact absurd (hzs ▸ hs) hzv
  | k + 1, z, hz, hzv => by
      obtain ⟨y, hy, hedge⟩ := hz.unsnoc
      by_cases hyv : y ∈ v
      · rcases inv.expanded y hyv z hedge with hzin | ⟨gz, hgz, hb⟩
        · exact absurd hzin hzv
        · obtain ⟨dy, hdy⟩ := exists_shortestDist ⟨k, hy⟩
          have hdyk : dy ≤ k := hdy.2 k hy
          have hgzb : gz ≤ dy + 1 := hb dy hdy
          obtain ⟨fz, hfz, hfzb⟩ := inv.unvisited_open z gz hgz hzv
          exact ⟨(fz, z), hfz, by simp; omega⟩
      · obtain ⟨e, he, heb⟩ := astar_cover m o cf g v inv k y hy hyv
        refine ⟨e, he, ?_⟩
        have hcons := manhattan_consistent m.goal hedge
        omega

/-- Helper: when the minimum frontier entry holds an unclosed node, the
g-score of that node is its exact shortest distance. -/
theorem astar_pop_exact (m : Maze) {e : HeapEntry} {rest : List HeapEntry}
    {cf : ParentMap} {g : ScoreMap} {v : List Coord}
    (inv : AstarInv m (e :: rest) cf g v) (hne : e.2 ∉ v) :
    ∃ ge, scoreGet? g e.2 = some ge ∧ shortestDist m m.start e.2 ge := by
  obtain ⟨ge, hge, hbound⟩ := inv.open_g e (List.mem_cons_self _ _)
  have hpath := inv.g_path e.2 ge hge
  obtain ⟨dz, hdz⟩ := exists_shortestDist ⟨ge, hpath⟩
  have hdzge : dz ≤ ge := hdz.2 ge hpath
  refine ⟨ge, hge, ?_⟩
  rcases hbound with hb | ⟨hs, h0⟩
  · obtain ⟨e', he', he'b⟩ := astar_cover m (e :: rest) cf g v inv dz e.2 hdz.1 hne
    have hle : entryLe e e' = true := by
      rcases List.mem_cons.mp he' with h | h
      · rw [h]
        exact entryLe_refl e
      · exact (List.pairwise_cons.mp inv.sorted).1 e' h
    have h1 : e.1 ≤ e'.1 := by
      rw [entryLe_iff] at hle
      omega
    have : ge = dz := by omega
    exact this ▸ hdz
  · have hge0 : ge = 0 := by
      rw [hs] at hge
      rw [inv.g_start] at hge
      exact (Option.some.injEq .. ▸ hge).symm
    have : dz = 0 := by omega
    rw [hge0, ← this]
    exact hdz

/-- Helper: the explicit value of one step of the A* neighbor loop. -/
theorem astarStep_eq (m : Maze) (current : Coord) (g_current : Nat)
    (visited : List Coord) (acc : List HeapEntry × ParentMap × ScoreMap × ScoreMap)
    (n : Coord) :
    astarStep m current g_current visited acc n =
      if n ∈ visited then acc
      else if (match scoreGet? acc.2.2.1 n with
          | none => true
          | some gv => decide (g_current + 1 < gv)) = true then
        (heappush (g_current + 1 + manhattan_distance n m.goal, n) acc.1,
          (n, some current) :: acc.2.1,
          (n, g_current + 1) :: acc.2.2.1,
          (n, g_current + 1 + manhattan_distance n m.goal) :: acc.2.2.2)
      else acc := rfl

/-- Helper: one step of the A* neighbor loop preserves the expansion
invariant. -/
theorem astarStep_AExp (m : Maze) (current : Coord) (gcur : Nat)
    (vnew : List Coord) (hcurv : current ∈ vnew) (hsv : m.start ∈ vnew)
    (acc : List HeapEntry × ParentMap × ScoreMap × ScoreMap) (n : Coord)
    (hn : n ∈ m.get_neighbors current.1 current.2)
    (inv : AstarExpandInv m vnew current gcur acc) :
    AstarExpandInv m vnew current gcur (astarStep m current gcur vnew acc n) := by
  rw [astarStep_eq]
  by_cases hnv : n ∈ vnew
  · rw [if_pos hnv]
    exact inv
  rw [if_neg hnv]
  by_cases hb : (match scoreGet? acc.2.2.1 n with
      | none => true
      | some gv => decide (gcur + 1 < gv)) = true
  swap
  · rw [if_neg hb]
    exact inv
  rw [if_pos hb]
  have hne_s : n ≠ m.start := fun h => hnv (h ▸ hsv)
  have hne_cur : n ≠ current := fun h => hnv (h ▸ hcurv)
  have hG := scoreGet_cons n (gcur + 1) acc.2.2.1
  have hCF := parentGet_cons n (some current) acc.2.1
  refine ⟨?_, ?_, ?_, ?_, ?_, ?_, ?_, ?_, ?_, ?_, ?_, ?_, ?_, ?_, ?_⟩
  · exact heappush_sorted _ acc.1 inv.sorted
  · rw [hG, if_neg (Ne.symm hne_s)]
    exact inv.g_start
  · rw [hG, if_neg (Ne.symm hne_cur)]
    exact inv.g_cur
  · intro c gc h
    rw [hG] at h
    by_cases hc : c = n
    · rw [if_pos hc] at h
      have hgc : gc = gcur + 1 := (Option.some.injEq .. ▸ h).symm
      rw [hc, hgc]
      exact (inv.g_path current gcur inv.g_cur).snoc hn
    · rw [if_neg hc] at h
      exact inv.g_path c gc h
  · intro c gc h
    rw [hG] at h
    by_cases hc : c = n
    · rw [hc]
      exact valid_of_free (free_of_mem_get_neighbors hn)
    · rw [if_neg hc] at h
      exact inv.g_valid c gc h
  · intro c hc gc h
    rw [hG, if_neg (fun hcn : c = n => hnv (hcn ▸ hc))] at h
    exact inv.frozen c hc gc h
  · intro c hc
    obtain ⟨gc, hgc⟩ := inv.has_g c hc
    refine ⟨gc, ?_⟩
    rw [hG, if_neg (fun hcn : c = n => hnv (hcn ▸ hc))]
    exact hgc
  · intro e' he'
    rcases (mem_heappush _ e' acc.1).mp he' with he'eq | he'mem
    · refine ⟨gcur + 1, ?_, Or.inl ?_⟩
      · rw [he'eq, hG]
        simp
      · rw [he'eq]
    · obtain ⟨ge, hge, hbnd⟩ := inv.open_g e' he'mem
      by_cases he2 : e'.2 = n
      · have hlook : scoreGet? acc.2.2.1 n = some ge := he2 ▸ hge
        rw [hlook] at hb
        simp only [decide_eq_true_eq] at hb
        refine ⟨gcur + 1, ?_, Or.inl ?_⟩
        · rw [hG, if_pos he2]
        · rcases hbnd with h1 | ⟨hs, -⟩
          · rw [he2] at h1 ⊢
            omega
          · exact absurd (he2 ▸ hs : n = m.start) hne_s
      · refine ⟨ge, ?_, hbnd⟩
        rw [hG, if_neg he2]
        exact hge
  · intro c gc h hcv
    rw [hG] at h
    by_cases hc : c = n
    · rw [if_pos hc] at h
      have hgc : gc = gcur + 1 := (Option.some.injEq .. ▸ h).symm
      refine ⟨gcur + 1 + manhattan_distance n m.goal, ?_, ?_⟩
      · rw [hc]
        exact self_mem_heappush _ _
      · rw [hc, hgc]
    · rw [if_neg hc] at h
      obtain ⟨fc, hfc, hfcb⟩ := inv.unv_open c gc h hcv
      exact ⟨fc, mem_heappush_of_mem hfc, hfcb⟩
  · exact inv.cf_ordered.insert (Ne.symm hne_cur)
      (fun k₀ p₀ hget hp => hnv (hp ▸ inv.cf_vals k₀ p₀ hget))
  · rw [hCF, if_neg (Ne.symm hne_s)]
    exact inv.cf_start
  · intro k p h
    rw [hCF] at h
    by_cases hk : k = n
    · rw [if_pos hk] at h
      cases h
      exact hcurv
    · rw [if_neg hk] at h
      exact inv.cf_vals k p h
  · intro k p h
    rw [hCF] at h
    by_cases hk : k = n
    · rw [if_pos hk] at h
      cases h
      rw [hk]
      exact hn
    · rw [if_neg hk] at h
      exact inv.cf_adj k p h
  · intro k p h
    rw [hCF] at h
    by_cases hk : k = n
    · rw [if_pos hk] at h
      cases h
      refine ⟨gcur + 1, gcur, ?_, ?_, rfl⟩
      · rw [hG, if_pos hk]
      · rw [hG, if_neg (Ne.symm hne_cur)]
        exact inv.g_cur
    · rw [if_neg hk] at h
      obtain ⟨gk, gp, hgk, hgp, heq⟩ := inv.cf_g k p h
      have hp_ne : p ≠ n := fun hp => hnv (hp ▸ inv.cf_vals k p h)
      refine ⟨gk, gp, ?_, ?_, heq⟩
      · rw [hG, if_neg hk]
        exact hgk
      · rw [hG, if_neg hp_ne]
        exact hgp
  · intro c gc h
    rw [hG] at h
    by_cases hc : c = n
    · right
      refine ⟨current, ?_⟩
      rw [hCF, if_pos hc]
    · rw [if_neg hc] at h
      rcases inv.keyed_parent c gc h with h1 | ⟨p, hp⟩
      · exact Or.inl h1
      · right
        refine ⟨p, ?_⟩
        rw [hCF, if_neg hc]
        exact hp

/-- Helper: the A* neighbor loop preserves the expansion invariant. -/
theorem astarFold_AExp (m : Maze) (current : Coord) (gcur : Nat)
    (vnew : List Coord) (hcurv : current ∈ vnew) (hsv : m.start ∈ vnew) :
    ∀ (ns : List Coord) (acc : List HeapEntry × ParentMap × ScoreMap × ScoreMap),
      (∀ x ∈ ns, x ∈ m.get_neighbors current.1 current.2) →
      AstarExpandInv m vnew current gcur acc →
      AstarExpandInv m vnew current gcur
        (ns.foldl (astarStep m current gcur vnew) acc)
  | [], acc, _, inv => inv
  | n :: t, acc, hns, inv => by
      rw [List.foldl_cons]
      exact astarFold_AExp m current gcur vnew hcurv hsv t _
        (fun x hx => hns x (List.mem_cons_of_mem n hx))
        (astarStep_AExp m current gcur vnew hcurv hsv acc n
          (hns n (List.mem_cons_self _ _)) inv)

/-- Helper: the A* neighbor loop never increases an existing g-score. -/
theorem astarFold_mono (m : Maze) (current : Coord) (gcur : Nat)
    (vnew : List Coord) :
    ∀ (ns : List Coord) (acc : List HeapEntry × ParentMap × ScoreMap × ScoreMap)
      (c : Coord) (gc : Nat), scoreGet? acc.2.2.1 c = some gc →
      ∃ gc', scoreGet? ((ns.foldl (astarStep m current gcur vnew) acc).2.2.1) c =
        some gc' ∧ gc' ≤ gc
  | [], acc, c, gc, h => ⟨gc, h, le_refl gc⟩
  | n :: t, acc, c, gc, h => by
      rw [List.foldl_cons, astarStep_eq]
      by_cases hnv : n ∈ vnew
      · rw [if_pos hnv]
        exact astarFold_mono m current gcur vnew t acc c gc h
      rw [if_neg hnv]
      by_cases hb : (match scoreGet? acc.2.2.1 n with
          | none => true
          | some gv => decide (gcur + 1 < gv)) = true
      · rw [if_pos hb]
        by_cases hc : c = n
        · have hlook : scoreGet? acc.2.2.1 n = some gc := hc ▸ h
          rw [hlook] at hb
          simp only [decide_eq_true_eq] at hb
          have hstep : scoreGet? ((n, gcur + 1) :: acc.2.2.1) c = some (gcur + 1) := by
            rw [scoreGet_cons, if_pos hc]
          obtain ⟨gc', hgc', hle⟩ := astarFold_mono m current gcur vnew t
            (heappush (gcur + 1 + manhattan_distance n m.goal, n) acc.1,
              (n, some current) :: acc.2.1, (n, gcur + 1) :: acc.2.2.1,
              (n, gcur + 1 + manhattan_distance n m.goal) :: acc.2.2.2) c (gcur + 1) hstep
          exact ⟨gc', hgc', by omega⟩
        · have hstep : scoreGet? ((n, gcur + 1) :: acc.2.2.1) c = some gc := by
            rw [scoreGet_cons, if_neg hc]
            exact h
          exact astarFold_mono m current gcur vnew t
            (heappush (gcur + 1 + manhattan_distance n m.goal, n) acc.1,
              (n, some current) :: acc.2.1, (n, gcur + 1) :: acc.2.2.1,
              (n, gcur + 1 + manhattan_distance n m.goal) :: acc.2.2.2) c gc hstep
      · rw [if_neg hb]
        exact astarFold_mono m current gcur vnew t acc c gc h

/-- Helper: after the A* neighbor loop, each neighbor is closed or carries a
g-score at most one above the distance of the expanded node. -/
theorem astarFold_offer (m : Maze) (current : Coord) (gcur : Nat)
    (vnew : List Coord) :
    ∀ (ns : List Coord) (acc : List HeapEntry × ParentMap × ScoreMap × ScoreMap),
      ∀ nb ∈ ns, nb ∈ vnew ∨
        ∃ gnb, scoreGet? ((ns.foldl (astarStep m current gcur vnew) acc).2.2.1) nb =
          some gnb ∧ gnb ≤ gcur + 1
  | [], acc, nb, hnb => absurd hnb (List.not_mem_nil _)
  | n :: t, acc, nb, hnb => by
      rw [List.foldl_cons]
      rcases List.mem_cons.mp hnb with rfl | hnb
      · by_cases hnv : nb ∈ vnew
        · exact Or.inl hnv
        right
        rw [astarStep_eq, if_neg hnv]
        by_cases hb : (match scoreGet? acc.2.2.1 nb with
            | none => true
            | some gv => decide (gcur + 1 < gv)) = true
        · rw [if_pos hb]
          have hstep : scoreGet? ((nb, gcur + 1) :: acc.2.2.1) nb = some (gcur + 1) := by
            rw [scoreGet_cons, if_pos rfl]
          obtain ⟨gc', hgc', hle⟩ := astarFold_mono m current gcur vnew t
            (heappush (gcur + 1 + manhattan_distance nb m.goal, nb) acc.1,
              (nb, some current) :: acc.2.1, (nb, gcur + 1) :: acc.2.2.1,
              (nb, gcur + 1 + manhattan_distance nb m.goal) :: acc.2.2.2) nb (gcur + 1)
            hstep
          exact ⟨gc', hgc', hle⟩
        · rw [if_neg hb]
          cases hlook : scoreGet? acc.2.2.1 nb with
          | none => rw [hlook] at hb; simp at hb
          | some gv =>
              rw [hlook] at hb
              simp only [decide_eq_true_eq] at hb
              obtain ⟨gc', hgc', hle⟩ := astarFold_mono m current gcur vnew t acc nb gv hlook
              exact ⟨gc', hgc', by omega⟩
      · exact astarFold_offer m current gcur vnew t _ nb hnb

/-- Helper: the master induction for the A* loop, carrying the full A*
invariant: any returned path is valid and shortest, the visit counter stays
within the cell count, and the no-path outcome happens exactly when the
goal is unreachable. -/
theorem astarLoop_master (m : Maze) (vis : Bool) (hwf : m.WF) :
    ∀ (fuel : Nat) (o : List HeapEntry) (cf : ParentMap) (g f : ScoreMap)
      (v : List Coord) (nv : Nat) (ev : List VisEvent) (out : SearchReturn),
      AstarInv m o cf g v → nv = v.length →
      astarLoop m vis fuel o cf g f v nv ev = some out →
      (∀ path, out.1 = some path → ValidPath m path ∧
        ∀ dg, shortestDist m m.start m.goal dg → path.length = dg + 1) ∧
      out.2.1.nodes_visited ≤ m.rows * m.cols ∧
      (out.1 = none → ¬ Reachable m m.start m.goal) ∧
      (¬ Reachable m m.start m.goal → out.1 = none)
  | 0, o, cf, g, f, v, nv, ev, out, _, _, hrun => absurd hrun (by simp [astarLoop])
  | fuel + 1, [], cf, g, f, v, nv, ev, out, inv, hcount, hrun => by
      simp only [astarLoop, Option.some.injEq] at hrun
      subst hrun
      refine ⟨by simp, ?_, ?_, fun h => rfl⟩
      · have hcap := visited_card m v inv.nodup_v inv.valid_v
        simpa [hcount] using hcap
      · intro _ hreach
        obtain ⟨n, hn⟩ := hreach
        obtain ⟨e, he, -⟩ := astar_cover m [] cf g v inv n m.goal hn inv.goal_notin
        exact absurd he (List.not_mem_nil e)
  | fuel + 1, entry :: open_rest, cf, g, f, v, nv, ev, out, inv, hcount, hrun => by
      simp only [astarLoop] at hrun
      by_cases hv : entry.2 ∈ v
      · rw [if_pos hv] at hrun
        have inv' : AstarInv m open_rest cf g v := by
          refine ⟨(List.pairwise_cons.mp inv.sorted).2, inv.nodup_v, inv.valid_v,
            inv.goal_notin, ?_, inv.g_start, inv.g_path, inv.g_valid, inv.v_exact,
            inv.v_has_g, ?_, ?_, inv.expanded, inv.cf_ordered, inv.cf_start,
            inv.cf_vals, inv.cf_adj, inv.cf_g, inv.keyed_parent⟩
          · rcases inv.init_or_start with ⟨hv0, -, -, -⟩ | hs
            · rw [hv0] at hv
              exact absurd hv (List.not_mem_nil _)
            · exact Or.inr hs
          · intro e' he'
            exact inv.open_g e' (List.mem_cons_of_mem entry he')
          · intro c gc hgc hcv
            obtain ⟨fc, hfc, hfcb⟩ := inv.unvisited_open c gc hgc hcv
            rcases List.mem_cons.mp hfc with heq | hmem
            · exfalso
              have : c = entry.2 := congrArg Prod.snd heq
              rw [this] at hcv
              exact hcv hv
            · exact ⟨fc, hmem, hfcb⟩
        exact astarLoop_master m vis hwf fuel open_rest cf g f v nv ev out inv'
          hcount hrun
      · rw [if_neg hv] at hrun
        obtain ⟨gcur, hgcur, hcur_exact⟩ := astar_pop_exact m inv hv
        have hsv' : m.start ∈ entry.2 :: v := by
          rcases inv.init_or_start with ⟨-, ho, -, -⟩ | hs
          · have hes : entry = (0, m.start) := by
              have := List.head_eq_of_cons_eq ho.symm
              exact this.symm
            rw [hes]
            exact List.mem_cons_self _ _
          · exact List.mem_cons_of_mem _ hs
        have hval_cur : m.is_valid_position entry.2.1 entry.2.2 = true :=
          inv.g_valid entry.2 gcur hgcur
        have hnodup' : (entry.2 :: v).Nodup := List.nodup_cons.mpr ⟨hv, inv.nodup_v⟩
        have hvalid' : ∀ c ∈ entry.2 :: v, m.is_valid_position c.1 c.2 = true := by
          intro c hc
          rcases List.mem_cons.mp hc with rfl | hc
          · exact hval_cur
          · exact inv.valid_v c hc
        have hvp' : ∀ c ∈ entry.2 :: v, c = m.start ∨ ∃ p, parentGet cf c = some p := by
          intro c hc
          rcases List.mem_cons.mp hc with rfl | hc
          · exact inv.keyed_parent entry.2 gcur hgcur
          · obtain ⟨gc, hgc⟩ := inv.v_has_g c hc
            exact inv.keyed_parent c gc hgc
        by_cases hg : entry.2 = m.goal
        · rw [if_pos hg] at hrun
          simp only [Option.some.injEq] at hrun
          subst hrun
          have hgoalv : m.goal ∈ entry.2 :: v := hg ▸ List.mem_cons_self _ _
          obtain ⟨hvalid, chain, hpath, hhead, hchain, hmemv, hne, hlast⟩ :=
            reconstruct_valid m cf (entry.2 :: v) inv.cf_ordered
              (fun k p h => List.mem_cons_of_mem _ (inv.cf_vals k p h))
              inv.cf_adj hvp' hgoalv hwf.1
          refine ⟨?_, ?_, by simp, fun hnr => absurd
            ⟨gcur, hg ▸ inv.g_path entry.2 gcur hgcur⟩ hnr⟩
          · intro path hpatheq
            have hpath' : path = reconstruct_path cf m.start m.goal := by
              simpa using hpatheq.symm
            subst hpath'
            refine ⟨hvalid, ?_⟩
            intro dg hdg
            have hdgcur : dg = gcur := shortestDist_unique hdg (hg ▸ hcur_exact)
            have hlen : chain.length = gcur + 1 := by
              refine chain_length_of_exact cf (fun x d => scoreGet? g x = some d)
                ?_ ?_ chain hchain ?_ hne ?_ m.goal gcur hhead (hg ▸ hgcur)
              · intro a b hab da db hda hdb
                obtain ⟨gk, gp, hgk, hgp, heq⟩ := inv.cf_g a b hab
                rw [hda] at hgk
                rw [hdb] at hgp
                have h1 : da = gk := Option.some.inj hgk
                have h2 : db = gp := Option.some.inj hgp
                omega
              · intro x d d' h1 h2
                rw [h1] at h2
                exact Option.some.inj h2
              · intro x hx
                rcases List.mem_cons.mp (hmemv x hx) with rfl | hxv
                · exact ⟨gcur, hgcur⟩
                · exact inv.v_has_g x hxv
              · rw [hlast]
                exact inv.g_start
            rw [hpath, List.length_reverse, hlen, hdgcur]
          · have hcap := visited_card m (entry.2 :: v) hnodup' hvalid'
            simp only [List.length_cons] at hcap
            simp only [hcount]
            omega
        · rw [if_neg hg] at hrun
          rw [hgcur] at hrun
          simp only [Option.getD_some] at hrun
          unfold astarExpand at hrun
          have inv0 : AstarExpandInv m (entry.2 :: v) entry.2 gcur
              (open_rest, cf, g, f) := by
            refine ⟨(List.pairwise_cons.mp inv.sorted).2, inv.g_start, hgcur,
              inv.g_path, inv.g_valid, ?_, ?_, ?_, ?_, inv.cf_ordered, inv.cf_start,
              ?_, inv.cf_adj, inv.cf_g, inv.keyed_parent⟩
            · intro c hc gc hgc
              rcases List.mem_cons.mp hc with rfl | hc
              · have : gc = gcur := by
                  rw [hgcur] at hgc
                  exact (Option.some.injEq .. ▸ hgc.symm)
                exact this ▸ hcur_exact
              · exact inv.v_exact c hc gc hgc
            · intro c hc
              rcases List.mem_cons.mp hc with rfl | hc
              · exact ⟨gcur, hgcur⟩
              · exact inv.v_has_g c hc
            · intro e' he'
              exact inv.open_g e' (List.mem_cons_of_mem entry he')
            · intro c gc hgc hcv
              have hcv' : c ∉ v := fun h => hcv (List.mem_cons_of_mem _ h)
              obtain ⟨fc, hfc, hfcb⟩ := inv.unvisited_open c gc hgc hcv'
              rcases List.mem_cons.mp hfc with heq | hmem
              · exfalso
                have : c = entry.2 := congrArg Prod.snd heq
                exact hcv (this ▸ List.mem_cons_self _ _)
              · exact ⟨fc, hmem, hfcb⟩
            · intro k p h
              exact List.mem_cons_of_mem _ (inv.cf_vals k p h)
          have hcur_mem : entry.2 ∈ entry.2 :: v := List.mem_cons_self _ _
          have final := astarFold_AExp m entry.2 gcur (entry.2 :: v) hcur_mem hsv'
            (m.get_neighbors entry.2.1 entry.2.2) (open_rest, cf, g, f)
            (fun x hx => hx) inv0
          have offer := astarFold_offer m entry.2 gcur (entry.2 :: v)
            (m.get_neighbors entry.2.1 entry.2.2) (open_rest, cf, g, f)
          have inv' : AstarInv m
              ((m.get_neighbors entry.2.1 entry.2.2).foldl
                (astarStep m entry.2 gcur (entry.2 :: v)) (open_rest, cf, g, f)).1
              ((m.get_neighbors entry.2.1 entry.2.2).foldl
                (astarStep m entry.2 gcur (entry.2 :: v)) (open_rest, cf, g, f)).2.1
              ((m.get_neighbors entry.2.1 entry.2.2).foldl
                (astarStep m entry.2 gcur (entry.2 :: v)) (open_rest, cf, g, f)).2.2.1
              (entry.2 :: v) := by
            refine ⟨final.sorted, hnodup', hvalid', ?_, Or.inr hsv', final.g_start,
              final.g_path, final.g_valid, final.frozen, final.has_g, final.open_g,
              final.unv_open, ?_, final.cf_ordered, final.cf_start, final.cf_vals,
              final.cf_adj, final.cf_g, final.keyed_parent⟩
            · intro hgoal
              rcases List.mem_cons.mp hgoal with heq | hmem
              · exact hg heq.symm
              · exact inv.goal_notin hmem
            · intro u hu nb hnb
              rcases List.mem_cons.mp hu with rfl | huv
              · rcases offer nb hnb with h | ⟨gnb, hgnb, hle⟩
                · exact Or.inl h
                · refine Or.inr ⟨gnb, hgnb, ?_⟩
                  intro du hdu
                  have : du = gcur := shortestDist_unique hdu hcur_exact
                  omega
              · rcases inv.expanded u huv nb hnb with h | ⟨gnb, hgnb, hbnd⟩
                · exact Or.inl (List.mem_cons_of_mem _ h)
                · obtain ⟨gnb', hgnb', hle⟩ := astarFold_mono m entry.2 gcur
                    (entry.2 :: v) (m.get_neighbors entry.2.1 entry.2.2)
                    (open_rest, cf, g, f) nb gnb hgnb
                  refine Or.inr ⟨gnb', hgnb', ?_⟩
                  intro du hdu
                  exact le_trans hle (hbnd du hdu)
          exact astarLoop_master m vis hwf fuel _ _ _ _ (entry.2 :: v) (nv + 1) _ out
            inv' (by simp [hcount]) hrun

/-- Helper: the A* invariant holds in the initial state. -/
theorem astarInit_inv (m : Maze) (hwf : m.WF) :
    AstarInv m [(0, m.start)] [] [(m.start, 0)] [] := by
  have hG : ∀ c, scoreGet? [(m.start, 0)] c =
      if c = m.start then some 0 else none := by
    intro c
    rw [show ([(m.start, 0)] : ScoreMap) = (m.start, 0) :: [] from rfl, scoreGet_cons]
    split_ifs <;> simp [scoreGet?]
  have hCF : ∀ c, parentGet ([] : ParentMap) c = none := by
    intro c
    simp [parentGet]
  refine ⟨List.pairwise_singleton _ _, List.nodup_nil, by simp, by simp,
    Or.inl ⟨rfl, rfl, rfl, rfl⟩, by rw [hG, if_pos rfl], ?_, ?_, by simp, by simp,
    ?_, ?_, by simp, ?_, hCF m.start, ?_, ?_, ?_, ?_⟩
  · intro c gc h
    rw [hG] at h
    by_cases hc : c = m.start
    · rw [if_pos hc] at h
      have : gc = 0 := Option.some.inj h.symm
      rw [hc, this]
      exact PathTo.refl m.start
    · rw [if_neg hc] at h
      cases h
  · intro c gc h
    rw [hG] at h
    by_cases hc : c = m.start
    · rw [hc]
      exact valid_of_free hwf.1
    · rw [if_neg hc] at h
      cases h
  · intro e he
    have he' : e = (0, m.start) := List.mem_singleton.mp he
    refine ⟨0, ?_, Or.inr ⟨by rw [he'], by rw [he']⟩⟩
    rw [he', hG, if_pos rfl]
  · intro c gc h _
    rw [hG] at h
    by_cases hc : c = m.start
    · rw [if_pos hc] at h
      have hgc : gc = 0 := Option.some.inj h.symm
      refine ⟨0, ?_, by omega⟩
      rw [hc]
      exact List.mem_singleton_self _
    · rw [if_neg hc] at h
      cases h
  · intro k p h
    rw [hCF] at h
    cases h
  · intro k p h
    rw [hCF] at h
    cases h
  · intro k p h
    rw [hCF] at h
    cases h
  · intro k p h
    rw [hCF] at h
    cases h
  · intro c gc h
    rw [hG] at h
    by_cases hc : c = m.start
    · exact Or.inl hc
    · rw [if_neg hc] at h
      cases h

/-- Helper: the length of the frontier grows by at most the number of
neighbors during one A* expansion. -/
theorem astarFold_open_length (m : Maze) (current : Coord) (g_current : Nat)
    (visited : List Coord) :
    ∀ (ns : List Coord) (acc : List HeapEntry × ParentMap × ScoreMap × ScoreMap),
      ((ns.foldl (astarStep m current g_current visited) acc).1).length ≤
        acc.1.length + ns.length
  | [], acc => by simp
  | n :: t, acc => by
      rw [List.foldl_cons]
      have h1 := astarFold_open_length m current g_current visited t
        (astarStep m current g_current visited acc n)
      have h2 : (astarStep m current g_current visited acc n).1.length ≤
          acc.1.length + 1 := by
        rw [astarStep_eq]
        split_ifs <;> (try simp only [heappush_length]) <;> omega
      simp only [List.length_cons]
      omega

/-- Helper: every frontier entry after one A* expansion is an old entry or
holds one of the expanded neighbors. -/
theorem astarFold_open_mem (m : Maze) (current : Coord) (g_current : Nat)
    (visited : List Coord) :
    ∀ (ns : List Coord) (acc : List HeapEntry × ParentMap × ScoreMap × ScoreMap),
      ∀ e ∈ (ns.foldl (astarStep m current g_current visited) acc).1,
        e ∈ acc.1 ∨ e.2 ∈ ns
  | [], acc, e, he => Or.inl he
  | n :: t, acc, e, he => by
      rw [List.foldl_cons] at he
      rcases astarFold_open_mem m current g_current visited t _ e he with h | h
      · rw [astarStep_eq] at h
        split_ifs at h
        · exact Or.inl h
        · rcases (mem_heappush _ e _).mp h with heq | hmem
          · right
            rw [heq]
            exact List.mem_cons_self _ _
          · exact Or.inl hmem
        · exact Or.inl h
      · exact Or.inr (List.mem_cons_of_mem n h)

/-- Helper: the A* loop returns a result once the fuel exceeds five times
the number of unvisited cells plus the frontier length. -/
theorem astarLoop_terminates (m : Maze) (vis : Bool) :
    ∀ (fuel : Nat) (o : List HeapEntry) (cf : ParentMap) (g f : ScoreMap)
      (v : List Coord) (nv : Nat) (ev : List VisEvent),
      v.Nodup → (∀ c ∈ v, m.is_valid_position c.1 c.2 = true) →
      (∀ e ∈ o, m.is_valid_position e.2.1 e.2.2 = true) →
      5 * (m.rows * m.cols - v.length) + o.length < fuel →
      ∃ out, astarLoop m vis fuel o cf g f v nv ev = some out
  | 0, o, cf, g, f, v, nv, ev, _, _, _, hfuel => absurd hfuel (by omega)
  | fuel + 1, [], cf, g, f, v, nv, ev, _, _, _, _ => ⟨_, rfl⟩
  | fuel + 1, entry :: open_rest, cf, g, f, v, nv, ev, hnd, hval, hoval, hfuel => by
      simp only [astarLoop]
      by_cases hv : entry.2 ∈ v
      · rw [if_pos hv]
        refine astarLoop_terminates m vis fuel open_rest cf g f v nv ev hnd hval
          (fun e he => hoval e (List.mem_cons_of_mem entry he)) ?_
        simp only [List.length_cons] at hfuel
        omega
      · rw [if_neg hv]
        by_cases hg : entry.2 = m.goal
        · rw [if_pos hg]
          exact ⟨_, rfl⟩
        · rw [if_neg hg]
          unfold astarExpand
          have hval_cur : m.is_valid_position entry.2.1 entry.2.2 = true :=
            hoval entry (List.mem_cons_self _ _)
          have hnd' : (entry.2 :: v).Nodup := List.nodup_cons.mpr ⟨hv, hnd⟩
          have hval' : ∀ c ∈ entry.2 :: v, m.is_valid_position c.1 c.2 = true := by
            intro c hc
            rcases List.mem_cons.mp hc with rfl | hc
            · exact hval_cur
            · exact hval c hc
          have hoval' : ∀ e ∈ ((m.get_neighbors entry.2.1 entry.2.2).foldl
              (astarStep m entry.2 ((scoreGet? g entry.2).getD 0) (entry.2 :: v))
              (open_rest, cf, g, f)).1, m.is_valid_position e.2.1 e.2.2 = true := by
            intro e he
            rcases astarFold_open_mem m entry.2 _ _ _ _ e he with h | h
            · exact hoval e (List.mem_cons_of_mem entry h)
            · exact valid_of_free (free_of_mem_get_neighbors h)
          have hlen := astarFold_open_length m entry.2
            ((scoreGet? g entry.2).getD 0) (entry.2 :: v)
            (m.get_neighbors entry.2.1 entry.2.2) (open_rest, cf, g, f)
          have hnslen := get_neighbors_length_le m entry.2.1 entry.2.2
          have hcap := visited_card m (entry.2 :: v) hnd' hval'
          refine astarLoop_terminates m vis fuel _ _ _ _ (entry.2 :: v) (nv + 1) _
            hnd' hval' hoval' ?_
          have htriv : ((open_rest, cf, g, f) :
              List HeapEntry × ParentMap × ScoreMap × ScoreMap).1 = open_rest := rfl
          rw [htriv] at hlen
          simp only [List.length_cons] at hfuel hcap ⊢
          omega

/-- Helper: the complete characterization of an A* run on a well formed
maze. -/
theorem astar_core (m : Maze) (vis : Bool) (hwf : m.WF) :
    ∃ out : SearchReturn, astar m vis = some out ∧
      (∀ path, out.1 = some path → ValidPath m path ∧
        ∀ dg, shortestDist m m.start m.goal dg → path.length = dg + 1) ∧
      out.2.1.nodes_visited ≤ m.rows * m.cols ∧
      (out.1 = none → ¬ Reachable m m.start m.goal) ∧
      (¬ Reachable m m.start m.goal → out.1 = none) := by
  have hvalid : m.is_valid_position m.start.1 m.start.2 = true := valid_of_free hwf.1
  obtain ⟨out, hout⟩ := astarLoop_terminates m vis (astarFuel m) (astarInitOpen m) []
    (astarInitG m) (astarInitF m) [] 0 [] List.nodup_nil (by simp)
    (by
      intro e he
      have : e = ((0 : Nat), m.start) := List.mem_singleton.mp he
      rw [this]
      exact hvalid)
    (by unfold astarFuel astarInitOpen; simp)
  refine ⟨out, hout, astarLoop_master m vis hwf (astarFuel m) (astarInitOpen m) []
    (astarInitG m) (astarInitF m) [] 0 [] out (astarInit_inv m hwf) rfl hout⟩

/-- Helper: no-path statistics of the BFS loop. -/
theorem bfsLoop_none_stats (m : Maze) (vis : Bool) :
    ∀ (fuel : Nat) (q v : List Coord) (p : ParentMap) (nv : Nat) (ev : List VisEvent)
      (s : Stats) (e : List VisEvent),
      bfsLoop m vis fuel q v p nv ev = some (none, s, e) →
        s.path_length = 0 ∧ s.path_found = false
  | 0, _, _, _, _, _, _, _ => by intro h; exact absurd h (by simp [bfsLoop])
  | _ + 1, [], _, _, _, _, _, _ => by
      intro h
      simp only [bfsLoop, Option.some.injEq, Prod.mk.injEq] at h
      obtain ⟨-, hs, -⟩ := h
      rw [← hs]
      exact ⟨rfl, rfl⟩
  | fuel + 1, current :: queue, v, p, nv, ev, s, e => by
      intro h
      simp only [bfsLoop] at h
      by_cases hg : current = m.goal
      · rw [if_pos hg] at h
        simp only [Option.some.injEq, Prod.mk.injEq] at h
        cases h.1
      · rw [if_neg hg] at h
        exact bfsLoop_none_stats m vis fuel _ _ _ _ _ s e h

/-- Helper: no-path statistics of the DFS loop. -/
theorem dfsLoop_none_stats (m : Maze) (vis : Bool) :
    ∀ (fuel : Nat) (q v : List Coord) (p : ParentMap) (nv : Nat) (ev : List VisEvent)
      (s : Stats) (e : List VisEvent),
      dfsLoop m vis fuel q v p nv ev = some (none, s, e) →
        s.path_length = 0 ∧ s.path_found = false
  | 0, _, _, _, _, _, _, _ => by intro h; exact absurd h (by simp [dfsLoop])
  | _ + 1, [], _, _, _, _, _, _ => by
      intro h
      simp only [dfsLoop, Option.some.injEq, Prod.mk.injEq] at h
      obtain ⟨-, hs, -⟩ := h
      rw [← hs]
      exact ⟨rfl, rfl⟩
  | fuel + 1, current :: queue, v, p, nv, ev, s, e => by
      intro h
      simp only [dfsLoop] at h
      by_cases hg : current = m.goal
      · rw [if_pos hg] at h
        simp only [Option.some.injEq, Prod.mk.injEq] at h
        cases h.1
      · rw [if_neg hg] at h
        exact dfsLoop_none_stats m vis fuel _ _ _ _ _ s e h

/-- Helper: no-path statistics of the A* loop. -/
theorem astarLoop_none_stats (m : Maze) (vis : Bool) :
    ∀ (fuel : Nat) (o : List HeapEntry) (cf : ParentMap) (g f : ScoreMap)
      (v : List Coord) (nv : Nat) (ev : List VisEvent) (s : Stats) (e : List VisEvent),
      astarLoop m vis fuel o cf g f v nv ev = some (none, s, e) →
        s.path_length = 0 ∧ s.path_found = false
  | 0, _, _, _, _, _, _, _, _, _ => by intro h; exact absurd h (by simp [astarLoop])
  | _ + 1, [], _, _, _, _, _, _, _, _ => by
      intro h
      simp only [astarLoop, Option.some.injEq, Prod.mk.injEq] at h
      obtain ⟨-, hs, -⟩ := h
      rw [← hs]
      exact ⟨rfl, rfl⟩
  | fuel + 1, entry :: open_rest, cf, g, f, v, nv, ev, s, e => by
      intro h
      simp only [astarLoop] at h
      by_cases hv : entry.2 ∈ v
      · rw [if_pos hv] at h
        exact astarLoop_none_stats m vis fuel _ _ _ _ _ _ _ s e h
      · rw [if_neg hv] at h
        by_cases hg : entry.2 = m.goal
        · rw [if_pos hg] at h
          simp only [Option.some.injEq, Prod.mk.injEq] at h
          cases h.1
        · rw [if_neg hg] at h
          exact astarLoop_none_stats m vis fuel _ _ _ _ _ _ _ s e h

/-- Helper: in the walled-off example maze nothing is reachable from the
start cell but the start cell itself. -/
theorem exMazeU_closed : ∀ {a b : Coord} {n : Nat},
    PathTo exMazeU a b n → a = (0, 0) → b = (0, 0) := by
  intro a b n h
  induction h with
  | refl c => exact fun h => h
  | step hab h ih =>
      intro ha
      rw [ha] at hab
      rw [show exMazeU.get_neighbors ((0, 0) : Coord).1 ((0, 0) : Coord).2 = []
        from rfl] at hab
      exact absurd hab (List.not_mem_nil _)

/-- Helper: the goal of the walled-off example maze is unreachable. -/
theorem exMazeU_unreachable : ¬ Reachable exMazeU exMazeU.start exMazeU.goal := by
  rintro ⟨n, h⟩
  have := exMazeU_closed h rfl
  exact absurd this (by decide)

/-- C2: on every well formed maze whose goal is reachable from the start,
A* returns a shortest path by edge count; in particular its edge count
equals the edge count of the path BFS returns on the same maze. -/
theorem astar_shortest (m : Maze) (vis : Bool) (hwf : m.WF)
    (hreach : Reachable m m.start m.goal) :
    ∃ (pathA pathB : List Coord) (sA sB : Stats) (eA eB : List VisEvent) (dg : Nat),
      astar m vis = some (some pathA, sA, eA) ∧
      bfs m vis = some (some pathB, sB, eB) ∧
      shortestDist m m.start m.goal dg ∧
      pathA.length = dg + 1 ∧ pathA.length = pathB.length := by
  obtain ⟨outA, houtA, hfoundA, -, hnoneA, -⟩ := astar_core m vis hwf
  obtain ⟨outB, houtB, hfoundB, -, hnoneB, -⟩ := bfs_core m vis hwf
  obtain ⟨dg, hdg⟩ := exists_shortestDist hreach
  obtain ⟨rA, sA, eA⟩ := outA
  obtain ⟨rB, sB, eB⟩ := outB
  cases hra : rA with
  | none => exact absurd hreach (hnoneA (by rw [hra]))
  | some pathA =>
      cases hrb : rB with
      | none => exact absurd hreach (hnoneB (by rw [hrb]))
      | some pathB =>
          subst hra hrb
          obtain ⟨-, hlenA⟩ := hfoundA pathA rfl
          obtain ⟨-, hlenB⟩ := hfoundB pathB rfl
          exact ⟨pathA, pathB, sA, sB, eA, eB, dg, houtA, houtB, hdg, hlenA dg hdg,
            by rw [hlenA dg hdg, hlenB dg hdg]⟩

/-- Witness for C2 on the example maze. -/
theorem astar_shortest_witness :
    ∃ (pathA pathB : List Coord) (sA sB : Stats) (eA eB : List VisEvent) (dg : Nat),
      astar exMaze true = some (some pathA, sA, eA) ∧
      bfs exMaze true = some (some pathB, sB, eB) ∧
      shortestDist exMaze exMaze.start exMaze.goal dg ∧
      pathA.length = dg + 1 ∧ pathA.length = pathB.length :=
  astar_shortest exMaze true (by decide)
    ⟨2, PathTo.step (b := (1, 2)) (by decide)
      (PathTo.step (b := (2, 2)) (by decide) (PathTo.refl _))⟩

/-- C3: on every well formed maze, any path returned by BFS, DFS or A*
starts at the start, ends at the goal, repeats no coordinate, and each
consecutive pair of coordinates is a pair of passable grid neighbors one
Manhattan step apart. -/
theorem returned_paths_valid (m : Maze) (vis : Bool) (hwf : m.WF) :
    (∀ path s e, bfs m vis = some (some path, s, e) → ValidPath m path) ∧
    (∀ path s e, dfs m vis = some (some path, s, e) → ValidPath m path) ∧
    (∀ path s e, astar m vis = some (some path, s, e) → ValidPath m path) := by
  obtain ⟨outB, houtB, hfoundB, -, -, -⟩ := bfs_core m vis hwf
  obtain ⟨outD, houtD, hfoundD, -, -⟩ := dfs_core m vis hwf
  obtain ⟨outA, houtA, hfoundA, -, -, -⟩ := astar_core m vis hwf
  refine ⟨?_, ?_, ?_⟩
  · intro path s e h
    rw [houtB] at h
    have hout : outB = (some path, s, e) := Option.some.inj h
    exact (hfoundB path (by rw [hout])).1
  · intro path s e h
    rw [houtD] at h
    have hout : outD = (some path, s, e) := Option.some.inj h
    exact hfoundD path (by rw [hout])
  · intro path s e h
    rw [houtA] at h
    have hout : outA = (some path, s, e) := Option.some.inj h
    exact (hfoundA path (by rw [hout])).1

/-- Witness for C3 on the example maze. -/
theorem returned_paths_valid_witness :
    ValidPath exMaze [(1, 1), (1, 2), (2, 2)] :=
  (returned_paths_valid exMaze true (by decide)).1 [(1, 1), (1, 2), (2, 2)]
    ⟨"BFS", 4, 3, true⟩ [(1, 2, "BFS"), (2, 1, "BFS"), (2, 2, "BFS")] rfl

/-- C4: on every well formed maze whose goal is unreachable from the start,
each of BFS, DFS and A* terminates and returns the no-path outcome with
`path_found = false` and `path_length = 0`, and each is delivered through
the normal `run_algorithm` return, not through the raised error branch. -/
theorem unreachable_no_path (m : Maze) (vis : Bool) (hwf : m.WF)
    (hunreach : ¬ Reachable m m.start m.goal) :
    (∃ s e, bfs m vis = some (none, s, e) ∧ s.path_found = false ∧
      s.path_length = 0) ∧
    (∃ s e, dfs m vis = some (none, s, e) ∧ s.path_found = false ∧
      s.path_length = 0) ∧
    (∃ s e, astar m vis = some (none, s, e) ∧ s.path_found = false ∧
      s.path_length = 0) ∧
    run_algorithm m "BFS" vis = Except.ok (bfs m vis) ∧
    run_algorithm m "DFS" vis = Except.ok (dfs m vis) ∧
    run_algorithm m "ASTAR" vis = Except.ok (astar m vis) := by
  obtain ⟨outB, houtB, -, -, -, hnoneB⟩ := bfs_core m vis hwf
  obtain ⟨outD, houtD, -, -, hnoneD⟩ := dfs_core m vis hwf
  obtain ⟨outA, houtA, -, -, -, hnoneA⟩ := astar_core m vis hwf
  obtain ⟨rB, sB, eB⟩ := outB
  obtain ⟨rD, sD, eD⟩ := outD
  obtain ⟨rA, sA, eA⟩ := outA
  have hrB : rB = none := hnoneB hunreach
  have hrD : rD = none := hnoneD hunreach
  have hrA : rA = none := hnoneA hunreach
  subst hrB hrD hrA
  refine ⟨⟨sB, eB, houtB, ?_⟩, ⟨sD, eD, houtD, ?_⟩, ⟨sA, eA, houtA, ?_⟩, ?_, ?_, ?_⟩
  · obtain ⟨h1, h2⟩ := bfsLoop_none_stats m vis (bfsFuel m) _ _ _ _ _ sB eB houtB
    exact ⟨h2, h1⟩
  · obtain ⟨h1, h2⟩ := dfsLoop_none_stats m vis (bfsFuel m) _ _ _ _ _ sD eD houtD
    exact ⟨h2, h1⟩
  · obtain ⟨h1, h2⟩ := astarLoop_none_stats m vis (astarFuel m) _ _ _ _ _ _ _ sA eA houtA
    exact ⟨h2, h1⟩
  · simp [run_algorithm, show strUpper "BFS" = "BFS" from by decide]
  · simp [run_algorithm, show strUpper "DFS" = "DFS" from by decide]
  · simp [run_algorithm, show strUpper "ASTAR" = "ASTAR" from by decide]

/-- Witness for C4 on the walled-off example maze. -/
theorem unreachable_no_path_witness :
    (∃ s e, bfs exMazeU true = some (none, s, e) ∧ s.path_found = false ∧
      s.path_length = 0) ∧
    (∃ s e, dfs exMazeU true = some (none, s, e) ∧ s.path_found = false ∧
      s.path_length = 0) ∧
    (∃ s e, astar exMazeU true = some (none, s, e) ∧ s.path_found = false ∧
      s.path_length = 0) ∧
    run_algorithm exMazeU "BFS" true = Except.ok (bfs exMazeU true) ∧
    run_algorithm exMazeU "DFS" true = Except.ok (dfs exMazeU true) ∧
    run_algorithm exMazeU "ASTAR" true = Except.ok (astar exMazeU true) :=
  unreachable_no_path exMazeU true (by decide) exMazeU_unreachable

/-- C6: on every well formed maze, the `nodes_visited` statistic of every
BFS, DFS and A* run is at most `rows * cols`. -/
theorem nodes_visited_bound (m : Maze) (vis : Bool) (hwf : m.WF) :
    (∀ r s e, bfs m vis = some (r, s, e) → s.nodes_visited ≤ m.rows * m.cols) ∧
    (∀ r s e, dfs m vis = some (r, s, e) → s.nodes_visited ≤ m.rows * m.cols) ∧
    (∀ r s e, astar m vis = some (r, s, e) → s.nodes_visited ≤ m.rows * m.cols) := by
  obtain ⟨outB, houtB, -, hcountB, -, -⟩ := bfs_core m vis hwf
  obtain ⟨outD, houtD, -, hcountD, -⟩ := dfs_core m vis hwf
  obtain ⟨outA, houtA, -, hcountA, -, -⟩ := astar_core m vis hwf
  refine ⟨?_, ?_, ?_⟩
  · intro r s e h
    rw [houtB] at h
    have hout : outB = (r, s, e) := Option.some.inj h
    rw [hout] at hcountB
    exact hcountB
  · intro r s e h
    rw [houtD] at h
    have hout : outD = (r, s, e) := Option.some.inj h
    rw [hout] at hcountD
    exact hcountD
  · intro r s e h
    rw [houtA] at h
    have hout : outA = (r, s, e) := Option.some.inj h
    rw [hout] at hcountA
    exact hcountA

/-- Witness for C6 on the example maze. -/
theorem nodes_visited_bound_witness :
    (⟨"BFS", 4, 3, true⟩ : Stats).nodes_visited ≤ exMaze.rows * exMaze.cols :=
  (nodes_visited_bound exMaze true (by decide)).1 (some [(1, 1), (1, 2), (2, 2)])
    ⟨"BFS", 4, 3, true⟩ [(1, 2, "BFS"), (2, 1, "BFS"), (2, 2, "BFS")] rfl

end MazeSolver
